import Mathlib

/-!
Shallow embedding of the persistence engine of the Log-slow-merge-tree
repository (the bundled `file-manager.ts`/`superblock.ts`/`wal.ts`/
`table.ts`/`lsm-tree.ts`/`event-ring.ts` sources), together with theorems
settling the specification claims about it.

Conventions of the embedding:
* Bytes are `Nat` values (each `< 256` where produced by an encoder);
  buffers are `List Nat`.  JavaScript numbers and BigInts are modelled as
  `Nat` (offsets, lengths, LSNs, epochs) or `Int` where the source can
  produce a negative intermediate value (free-space computations).
* A JavaScript `Map` with numeric keys is modelled as an insertion-ordered
  association list.
* Asynchronous methods are modelled as pure state transformers; a `throw`
  of a `DatabaseError` becomes an `Except` error carrying the numeric code.
* `file.write(off, buf)` calls are recorded as `(off, buf)` pairs and/or
  applied to a `List Nat` model of the backing file.
-/

namespace LSMT

/-! ## Byte and buffer primitives -/

/-- `alignUp` from `file-manager.ts` / `wal.ts`: `(n + (a-1)) & ~(a-1)`.
For a power-of-two alignment `a` the and-not mask clears the low bits,
which on naturals is subtraction of the remainder. -/
def alignUp (n : Nat) (a : Nat) : Nat :=
  (n + (a - 1)) - ((n + (a - 1)) % a)

/-- Little-endian encoding of `n` into exactly `k` bytes
(`DataView.setUint16/setUint32/setBigUint64` with littleEndian=true). -/
def encLE : Nat → Nat → List Nat
  | 0, _ => []
  | k + 1, n => (n % 256) :: encLE k (n / 256)

/-- Little-endian decoding of a byte list
(`DataView.getUint16/getUint32/getBigUint64` with littleEndian=true). -/
def decLE : List Nat → Nat
  | [] => 0
  | b :: bs => b % 256 + 256 * decLE bs

/-- Byte-range read `file.read(off, len)`: returns up to `len` bytes
starting at `off` (short when the file ends first). -/
def readAt (file : List Nat) (off len : Nat) : List Nat :=
  (file.drop off).take len

/-- Positioned write `file.write(off, buf)`: splices `buf` into the file at
`off`, zero-extending the file first if `off` is past the end (sparse
extension, as the filesystem provides for `fh.write`). -/
def writeAt (file : List Nat) (off : Nat) (buf : List Nat) : List Nat :=
  (file.take off ++ List.replicate (off - file.length) 0) ++ buf ++ file.drop (off + buf.length)

@[simp] theorem encLE_length (k n : Nat) : (encLE k n).length = k := by
  induction k generalizing n with
  | zero => rfl
  | succ k ih => simp [encLE, ih]

theorem decLE_encLE (k n : Nat) : decLE (encLE k n) = n % 256 ^ k := by
  induction k generalizing n with
  | zero => simp [encLE, decLE, Nat.mod_one]
  | succ k ih =>
    simp only [encLE, decLE, ih, Nat.mod_mod_of_dvd _ (dvd_refl 256)]
    rw [Nat.pow_succ, Nat.mul_comm (256 ^ k) 256, Nat.mod_mul]

theorem decLE_encLE_of_lt {k n : Nat} (h : n < 256 ^ k) :
    decLE (encLE k n) = n := by
  rw [decLE_encLE, Nat.mod_eq_of_lt h]

theorem readAt_append_right (a b : List Nat) (o n : Nat) (h : a.length ≤ o) :
    readAt (a ++ b) o n = readAt b (o - a.length) n := by
  unfold readAt
  congr 1
  have h2 : o = a.length + (o - a.length) := by omega
  conv_lhs => rw [h2]
  rw [List.drop_append]

theorem readAt_take (a b : List Nat) (n : Nat) (h : a.length = n) :
    readAt (a ++ b) 0 n = a := by
  unfold readAt
  rw [List.drop_zero, List.take_append_of_le_length (by omega), List.take_of_length_le (by omega)]

theorem readAt_all (a : List Nat) (n : Nat) (h : a.length ≤ n) :
    readAt a 0 n = a := by
  unfold readAt
  rw [List.drop_zero, List.take_of_length_le h]

/-! ## Constants (`constants.ts`) -/

def BLOCK : Nat := 4096

def J_START : Nat := 2 * BLOCK

def J_LENGTH : Nat := 256 * BLOCK

def MANIFEST_OFF : Nat := J_START + J_LENGTH

def MAX_INFLIGHT : Nat := 8

def ENTRY_SIZE : Nat := 2 + 2 + 8 + 4 + 16 + 16

def HEADER_SIZE : Nat := 2 + 2 + 8 + 2 + 2

def CAP : Nat := (BLOCK - HEADER_SIZE) / ENTRY_SIZE

/-- Error codes of `DatabaseError` (`constants.ts`), as one type. -/
inductive DbErr where
  | walFull
  | lsnNotFound
  | invalidKeySize
  | truncatedId
  | truncatedExtents
  | manifestFull
  | needsCompaction
  | brokenTableSize
  | entryNotExist
  | invalidPfxSize
  | tooManyEntries
  | invalidPageSize
  | countExceedsCap
  | corrupt
  | shortRead
  | noValidSuperblocks
  | notInitialized
  | unmodelled
  deriving DecidableEq, Repr

/-- Operation kinds accepted by the submission queue (`OP` in
`constants.ts`). -/
inductive OpKind where
  | set
  | del
  | get
  | check
  deriving DecidableEq, Repr

/-- `OP[op]`: numeric opcode of an operation. -/
def toNumOp : OpKind → Nat
  | .set => 1
  | .del => 2
  | .get => 3
  | .check => 4

/-- A queued operation (`Operation` in `event-ring.ts`); the key and value
strings are modelled by their `TextEncoder` byte sequences. -/
structure Operation where
  op : OpKind
  key : List Nat
  value : List Nat
  deriving DecidableEq, Repr

/-! ## WAL ring journal (`wal.ts`, bundled `WAL_Manager`) -/

/-- In-memory state of `WAL_Manager`: journal bounds, head/tail pointers,
last assigned LSN, and the `lsnToEnd` map (insertion-ordered association
list, as a JS `Map`). -/
structure WalState where
  jStart : Nat
  jEnd : Nat
  head : Nat
  tail : Nat
  lsn : Nat
  lsnToEnd : List (Nat × Nat)
  deriving DecidableEq, Repr

/-- `Map.get`. -/
def mapGet (m : List (Nat × Nat)) (k : Nat) : Option Nat :=
  (m.find? (fun p => p.1 = k)).map (·.2)

/-- `Map.set`: update in place when the key exists, append otherwise. -/
def mapSet (m : List (Nat × Nat)) (k v : Nat) : List (Nat × Nat) :=
  if m.any (fun p => p.1 = k) then
    m.map (fun p => if p.1 = k then (k, v) else p)
  else
    m ++ [(k, v)]

/-- `this.alignUp(n)` of `WAL_Manager` (default alignment 8). -/
def walAlign (n : Nat) : Nat := alignUp n 8

/-- `minHdr = 8 + 1 + 4 + 4`: lsn u64, op u8, klen u32, vlen u32. -/
def minHdr : Nat := 17

/-- `WAL_Manager.encodeRecord`: header, key bytes, value bytes, zero-padded
up to 8-byte alignment. -/
def encodeRecord (lsn op : Nat) (key value : List Nat) : List Nat :=
  let raw := encLE 8 lsn ++ [op % 256] ++ encLE 4 key.length ++ encLE 4 value.length
      ++ key ++ value
  raw ++ List.replicate (walAlign raw.length - raw.length) 0

/-- `WAL_Manager.encodePad`: a PAD record (opcode 0, klen=vlen=0) carrying
the given LSN, aligned. -/
def encodePad (lsn : Nat) : List Nat :=
  let raw := encLE 8 lsn ++ [0] ++ encLE 4 0 ++ encLE 4 0
  raw ++ List.replicate (walAlign raw.length - raw.length) 0

/-- `WAL_Manager.getUsed`. -/
def getUsed (st : WalState) : Nat :=
  if st.tail ≥ st.head then st.tail - st.head
  else (st.jEnd - st.head) + (st.tail - st.jStart)

/-- The records of a batch with their assigned LSNs
(`items.map` in `appendMany`, threading `next`). -/
def assignRecs (lsn0 : Nat) (items : List Operation) : List (Nat × List Nat) :=
  items.enum.map fun it =>
    (lsn0 + it.1 + 1, encodeRecord (lsn0 + it.1 + 1) (toNumOp it.2.op) it.2.key it.2.value)

/-- The write loop of `appendMany`: write each record at the running
offset, remembering the normalized end offset per LSN.  Returns the final
offset, the write list, and the updated map. -/
def appendLoop (jStart jEnd : Nat) :
    List (Nat × List Nat) → Nat → List (Nat × Nat) → Nat × List (Nat × List Nat) × List (Nat × Nat)
  | [], off, m => (off, [], m)
  | (lsn, buf) :: rest, off, m =>
    let off' := off + buf.length
    let normEnd := if off' = jEnd then jStart else off'
    let (fin, ws, m') := appendLoop jStart jEnd rest off' (mapSet m lsn normEnd)
    (fin, (off, buf) :: ws, m')

/-- Total encoded size of a batch as `appendMany` computes it. -/
def batchBytesOf (st : WalState) (items : List Operation) : Nat :=
  ((assignRecs st.lsn items).map (fun r => r.2.length)).sum

/-- `WAL_Manager.appendMany`.  The result is the return value (the last LSN
of the batch) or the thrown error, together with the state after the call
and the list of positioned writes it performed: the wal-full throw happens
before any mutation or write, so in that case the state comes back
untouched and the write list is empty. -/
def appendMany (st : WalState) (items : List Operation) :
    Except DbErr Nat × WalState × List (Nat × List Nat) :=
  let recs := assignRecs st.lsn items
  let next := st.lsn + items.length
  let batchBytes := batchBytesOf st items
  let padBytes := walAlign minHdr
  let regionBytes := st.jEnd - st.jStart
  let used := getUsed st
  let free : Int := (regionBytes : Int) - used
  let needsWrap := decide (st.tail + batchBytes > st.jEnd)
  let needTotal := batchBytes + (if needsWrap then padBytes else 0)
  if free < (needTotal : Int) then
    (.error .walFull, st, [])
  else
    let padWrites := if needsWrap then [(st.tail, encodePad st.lsn)] else []
    let tail1 := if needsWrap then st.jStart else st.tail
    let (fin, ws, m') := appendLoop st.jStart st.jEnd recs tail1 st.lsnToEnd
    let tail2 := if fin = st.jEnd then st.jStart else fin
    (.ok next,
     { st with tail := tail2, lsn := next, lsnToEnd := m' },
     padWrites ++ ws)

/-- The superblock-update argument record passed by `WAL_Manager.checkpoint`
to `sbm.checkpoint`. -/
structure SbUpdate where
  epoch : Option Nat
  checkpointLSN : Nat
  jHead : Nat
  jTail : Nat
  deriving DecidableEq, Repr

/-- `WAL_Manager.checkpoint(lsn, sbm)`: fails when `lsn` is not in the map;
otherwise moves `head` to the remembered offset, deletes every map entry
whose key is `≤ offset` (the byte offset — this is the comparison written
in the source), and produces the update record handed to
`sbm.checkpoint`. -/
def walCheckpoint (st : WalState) (lsn : Nat) :
    Except DbErr (WalState × SbUpdate) :=
  match mapGet st.lsnToEnd lsn with
  | none => .error .lsnNotFound
  | some offset =>
    let st' := { st with
      head := offset,
      lsnToEnd := st.lsnToEnd.filter (fun p => ¬ p.1 ≤ offset) }
    .ok (st', { epoch := none, checkpointLSN := lsn, jHead := offset, jTail := st.tail })

/-- Result of `WAL_Manager.decodeAt` at one offset. -/
inductive DecodedRec where
  | pad (next : Nat)
  | entry (next lsn op : Nat) (key value : List Nat)
  | stop
  deriving DecidableEq, Repr

/-- `WAL_Manager.decodeAt(view, offset)`: decode one record header and
body; `stop` models the `null` return on a truncated header or body. -/
def decodeAt (buf : List Nat) (offset : Nat) : DecodedRec :=
  if offset + minHdr > buf.length then .stop
  else
    let lsn := decLE (readAt buf offset 8)
    let op := (buf.drop (offset + 8)).headD 0
    let klen := decLE (readAt buf (offset + 9) 4)
    let vlen := decLE (readAt buf (offset + 13) 4)
    if op = 0 then .pad (walAlign (offset + minHdr))
    else if offset + minHdr + klen + vlen > buf.length then .stop
    else
      .entry (walAlign (offset + minHdr + klen + vlen)) lsn op
        (readAt buf (offset + minHdr) klen)
        (readAt buf (offset + minHdr + klen) vlen)

/-- One scanned record: LSN, opcode, key, value, and the offset at which
the record STARTS inside the scanned buffer (`out.push({..., off})` in
`scan` records the cursor before decoding). -/
structure ScanEntry where
  lsn : Nat
  op : Nat
  key : List Nat
  value : List Nat
  off : Nat
  deriving DecidableEq, Repr

theorem le_walAlign (n : Nat) : n ≤ walAlign n := by
  unfold walAlign alignUp
  omega

@[simp] theorem encodeRecord_length (lsn op : Nat) (k v : List Nat) :
    (encodeRecord lsn op k v).length = walAlign (minHdr + k.length + v.length) := by
  have h := le_walAlign (minHdr + k.length + v.length)
  unfold encodeRecord
  simp only [List.length_append, encLE_length, List.length_cons, List.length_nil,
    List.length_replicate]
  unfold minHdr at *
  norm_num
  omega

/-- `decodeAt` never points backwards: any `next` it yields is at least
`offset + minHdr`. -/
theorem decodeAt_next_ge {buf : List Nat} {off : Nat} :
    (∀ n, decodeAt buf off = .pad n → off + minHdr ≤ n) ∧
    (∀ n lsn op k v, decodeAt buf off = .entry n lsn op k v → off + minHdr ≤ n) := by
  unfold decodeAt
  split
  · exact ⟨fun n h => by simp at h, fun n lsn op k v h => by simp at h⟩
  · constructor
    · intro n h
      simp only at h
      split at h
      · simp only [DecodedRec.pad.injEq] at h
        subst h
        exact le_walAlign _
      · split at h
        · simp at h
        · simp at h
    · intro n lsn op k v h
      simp only at h
      split at h
      · simp at h
      · split at h
        · simp at h
        · simp only [DecodedRec.entry.injEq] at h
          calc off + minHdr ≤ off + minHdr + _ + _ := by omega
            _ ≤ walAlign (off + minHdr + _ + _) := le_walAlign _
            _ = n := h.1

/-- The decode loop of `WAL_Manager.scan` over an in-memory buffer. -/
def scanLoop (buf : List Nat) (off : Nat) : List ScanEntry :=
  if h : off < buf.length then
    match hd : decodeAt buf off with
    | .stop => []
    | .pad next => scanLoop buf next
    | .entry next lsn op key value =>
      { lsn := lsn, op := op, key := key, value := value, off := off } :: scanLoop buf next
  else []
termination_by buf.length - off
decreasing_by
  · have := decodeAt_next_ge.1 next hd
    have : minHdr = 17 := rfl
    omega
  · have := decodeAt_next_ge.2 next lsn op key value hd
    have : minHdr = 17 := rfl
    omega

/-- `WAL_Manager.scan(from, maxBytes)` against a model file: read up to
`maxBytes` bytes at `from` and decode records from offset 0. -/
def walScan (file : List Nat) (fromOff maxBytes : Nat) : List ScanEntry :=
  scanLoop (readAt file fromOff maxBytes) 0

/-- `WAL_Manager.initFrom(head, tail, lastLSN)`: install the pointers, then
rebuild `lsnToEnd` from `scan(this.head, this.tail)` — note the source
passes the absolute `tail` as the scan's byte-count argument and stores
`this.head + e.off`, the scanned record's START offset. -/
def initFrom (file : List Nat) (jStart jEnd head tail lastLSN : Nat) : WalState :=
  let entries := walScan file head tail
  { jStart := jStart, jEnd := jEnd, head := head, tail := tail, lsn := lastLSN,
    lsnToEnd := entries.foldl (fun m e => mapSet m e.lsn (head + e.off)) [] }

/-! ## Superblock manager (bundled `superblock.ts`) -/

/-- The superblock record. -/
structure Superblock where
  version : Nat
  blockSize : Nat
  epoch : Nat
  checkpointLSN : Nat
  jHead : Nat
  jTail : Nat
  deriving DecidableEq, Repr

/-- `encodeSB`: the six fields little-endian at offset 0 of a `BLOCK`-sized
zero buffer. -/
def encodeSB (sb : Superblock) : List Nat :=
  encLE 2 sb.version ++ encLE 2 sb.blockSize ++ encLE 8 sb.epoch
    ++ encLE 8 sb.checkpointLSN ++ encLE 8 sb.jHead ++ encLE 8 sb.jTail
    ++ List.replicate (BLOCK - 36) 0

/-- `decodeSB`: `null` when the buffer is short, the blockSize is not
`BLOCK`, or the version is 0. -/
def decodeSB (buf : List Nat) : Option Superblock :=
  if buf.length < BLOCK then none
  else
    let version := decLE (readAt buf 0 2)
    let blockSize := decLE (readAt buf 2 2)
    let epoch := decLE (readAt buf 4 8)
    let checkpointLSN := decLE (readAt buf 12 8)
    let jHead := decLE (readAt buf 20 8)
    let jTail := decLE (readAt buf 28 8)
    if blockSize ≠ BLOCK ∨ version = 0 then none
    else some { version := version, blockSize := blockSize, epoch := epoch,
                checkpointLSN := checkpointLSN, jHead := jHead, jTail := jTail }

@[simp] theorem encodeSB_length (sb : Superblock) : (encodeSB sb).length = BLOCK := by
  simp only [encodeSB, List.length_append, encLE_length, List.length_replicate,
    List.length_cons, List.length_nil]
  unfold BLOCK
  omega

/-- Round trip of the superblock codec on in-range, valid field values. -/
theorem decodeSB_encodeSB (sb : Superblock) (hver : sb.version < 2 ^ 16)
    (hver0 : sb.version ≠ 0) (hbs : sb.blockSize = BLOCK)
    (hep : sb.epoch < 2 ^ 64) (hcl : sb.checkpointLSN < 2 ^ 64)
    (hjh : sb.jHead < 2 ^ 64) (hjt : sb.jTail < 2 ^ 64) :
    decodeSB (encodeSB sb) = some sb := by
  norm_num at hver hep hcl hjh hjt
  unfold decodeSB
  rw [if_neg (by simp)]
  unfold encodeSB
  simp [readAt_append_right, readAt_take, decLE_encLE]
  obtain ⟨v, b, ep, cl, jh, jt⟩ := sb
  simp only at *
  unfold BLOCK at *
  refine ⟨⟨by omega, by omega⟩, ?_⟩
  simp only [Superblock.mk.injEq]
  refine ⟨by omega, by omega, by omega, by omega, by omega, by omega⟩

/-- Active superblock slot. -/
inductive Slot where
  | A
  | B
  deriving DecidableEq, Repr

/-- State of `SuperblockManager` together with the two on-disk slots
(the byte contents at `SB_A_OFF` and `SB_B_OFF`). -/
structure SbState where
  active : Slot
  sb : Option Superblock
  diskA : List Nat
  diskB : List Nat
  deriving DecidableEq, Repr

/-- `SuperblockManager.formatInitial`: identical superblocks in both slots;
active slot A. -/
def sbFormatInitial (journalStart epoch : Nat) : SbState :=
  let base : Superblock :=
    { version := 1, blockSize := BLOCK, epoch := epoch, checkpointLSN := 0,
      jHead := journalStart, jTail := journalStart }
  let buf := encodeSB base
  { active := .A, sb := some base, diskA := buf, diskB := buf }

/-- `SuperblockManager.checkpoint(update)` of the bundled source: the new
superblock takes `update.epoch ?? this.sb.epoch` — the epoch is only
changed when the caller passes one — and is written to the inactive slot
before the active pointer flips. -/
def sbCheckpoint (st : SbState) (u : SbUpdate) : Except DbErr SbState :=
  match st.sb with
  | none => .error .notInitialized
  | some sb =>
    let next : Superblock :=
      { version := sb.version, blockSize := BLOCK,
        epoch := u.epoch.getD sb.epoch,
        checkpointLSN := u.checkpointLSN, jHead := u.jHead, jTail := u.jTail }
    let buf := encodeSB next
    match st.active with
    | .A => .ok { active := .B, sb := some next, diskA := st.diskA, diskB := buf }
    | .B => .ok { active := .A, sb := some next, diskA := buf, diskB := st.diskB }

/-- The `utils.ts` variant of `SuperblockManager.checkpoint`: identical
except that the new superblock always carries `this.sb.epoch + 1n`. -/
def sbCheckpointVariant (st : SbState) (cLSN jHead jTail : Nat) : Except DbErr SbState :=
  match st.sb with
  | none => .error .notInitialized
  | some sb =>
    let next : Superblock :=
      { version := sb.version, blockSize := BLOCK, epoch := sb.epoch + 1,
        checkpointLSN := cLSN, jHead := jHead, jTail := jTail }
    let buf := encodeSB next
    match st.active with
    | .A => .ok { active := .B, sb := some next, diskA := st.diskA, diskB := buf }
    | .B => .ok { active := .A, sb := some next, diskA := buf, diskB := st.diskB }

/-! ## Sort-key comparison (`utils.ts`) -/

/-- The loop body of `cmp16`: compare byte `i`, recurse on ties; totalised
with 0 for missing bytes (the source assumes 16-byte inputs). -/
def cmpAux : Nat → List Nat → List Nat → Int
  | 0, _, _ => 0
  | n + 1, a, b =>
    let d : Int := (a.headD 0 : Int) - (b.headD 0 : Int)
    if d ≠ 0 then d else cmpAux n a.tail b.tail

/-- `cmp16`: bytewise lexicographic comparison of 16-byte sort keys. -/
def cmp16 (a b : List Nat) : Int := cmpAux 16 a b

/-- `lt16`. -/
def lt16 (a b : List Nat) : Bool := decide (cmp16 a b < 0)

/-- `gt16`. -/
def gt16 (a b : List Nat) : Bool := decide (cmp16 a b > 0)

/-! ## Manifest and table writer (bundled `table.ts`) -/

/-- `ManifestEntry` (per-table record of the manifest page). -/
structure ManifestEntry where
  level : Nat
  metaOff : Nat
  metaLen : Nat
  minPfx : List Nat
  maxPfx : List Nat
  deriving DecidableEq, Repr

/-- In-memory state of `TableIO` used by the claims: the manifest entry
list and the `tableTail` placement cursor (the manifest epoch/version and
the read cache are not consulted by any claim). -/
structure TableState where
  entries : List ManifestEntry
  tableTail : Nat
  deriving DecidableEq, Repr

/-- `TableIO.addEntry`: reject when the manifest is at capacity, otherwise
append the entry (the page rewrite and the redundant single-entry write
persist exactly this in-memory list). -/
def addEntry (st : TableState) (e : ManifestEntry) : Except DbErr TableState :=
  if st.entries.length ≥ CAP then .error .manifestFull
  else .ok { st with entries := st.entries ++ [e] }

/-- `TableIO.requestTable(level, size, minPrefix, maxPrefix)`: fail with
needs-compaction when `size` exceeds `fileSize - tableTail`, else admit a
manifest entry at `metaOff = tableTail` with `metaLen = size` and advance
`tableTail` to the next block boundary past the blob. -/
def requestTable (st : TableState) (fileSize level size : Nat)
    (minPfx maxPfx : List Nat) : Except DbErr (TableState × ManifestEntry) :=
  let left : Int := (fileSize : Int) - st.tableTail
  if (size : Int) > left then .error .needsCompaction
  else
    let metaOff := st.tableTail
    let metaLen := size
    let e : ManifestEntry :=
      { level := level, metaOff := metaOff, metaLen := metaLen,
        minPfx := minPfx, maxPfx := maxPfx }
    match addEntry st e with
    | .error err => .error err
    | .ok st' => .ok ({ st' with tableTail := alignUp (metaOff + metaLen) BLOCK }, e)

/-- An index entry of the block index (`firstKey`, offset, length). -/
structure IndexEntry where
  firstKey : List Nat
  off : Nat
  len : Nat
  deriving DecidableEq, Repr

/-- The mutable locals of the block-building phase of `TableIO.flushWAL`:
sealed blocks, their index, and the current open block. -/
structure Builder where
  blocks : List (List Nat)
  index : List IndexEntry
  parts : List (List Nat)
  countInBlock : Nat
  curSize : Nat
  firstKey : Option (List Nat)
  minPfx : Option (List Nat)
  maxPfx : Option (List Nat)
  entryCount : Nat
  deriving DecidableEq, Repr

/-- The builder before any record is pushed. -/
def initBuilder : Builder :=
  { blocks := [], index := [], parts := [], countInBlock := 0, curSize := 2,
    firstKey := none, minPfx := none, maxPfx := none, entryCount := 0 }

/-- The per-record header of a data block: klen u16, vlen u32. -/
def recHdr (kb vb : List Nat) : List Nat :=
  encLE 2 kb.length ++ encLE 4 vb.length

/-- `flushBlock` of `TableIO.flushWAL`: seal the open block (count header,
parts, padding up to a `BLOCK` multiple), record its index entry, reset the
open-block locals. -/
def flushBlock (b : Builder) : Builder :=
  if b.countInBlock = 0 then b
  else
    let raw := encLE 2 b.countInBlock ++ b.parts.join
    let padded := raw ++ List.replicate (alignUp raw.length BLOCK - raw.length) 0
    let off := (b.blocks.map List.length).sum
    { blocks := b.blocks ++ [padded],
      index := b.index ++ [{ firstKey := b.firstKey.getD [], off := off, len := padded.length }],
      parts := [], countInBlock := 0, curSize := 2, firstKey := none,
      minPfx := b.minPfx, maxPfx := b.maxPfx, entryCount := b.entryCount }

/-- `pushRecord` of `TableIO.flushWAL`: seal first when the record would
overflow the open block, then append the record and update the
min/max sort-key prefixes. -/
def pushRecord (sk : List Nat → List Nat) (b : Builder) (kb vb : List Nat) : Builder :=
  let recLen := 6 + kb.length + vb.length
  let b1 := if b.curSize + recLen > BLOCK then flushBlock b else b
  let p := sk kb
  { b1 with
    firstKey := some (b1.firstKey.getD kb),
    parts := b1.parts ++ [recHdr kb vb, kb, vb],
    curSize := b1.curSize + recLen,
    countInBlock := b1.countInBlock + 1,
    entryCount := b1.entryCount + 1,
    minPfx := some (match b1.minPfx with
      | none => p
      | some q => if lt16 p q then p else q),
    maxPfx := some (match b1.maxPfx with
      | none => p
      | some q => if gt16 p q then p else q) }

/-- `tree.toArray().sort(...)`: the snapshot pairs, stably sorted by
`cmp16` of the sort-key prefixes (JavaScript `Array.prototype.sort` is
stable). -/
def sortRecs (sk : List Nat → List Nat) (snap : List (List Nat × List Nat)) :
    List (List Nat × List Nat) :=
  snap.mergeSort (fun x y => decide (cmp16 (sk x.1) (sk y.1) ≤ 0))

/-- The whole block-building phase of `flushWAL`: push every sorted record
and seal the trailing block. -/
def buildAll (sk : List Nat → List Nat) (snap : List (List Nat × List Nat)) : Builder :=
  flushBlock ((sortRecs sk snap).foldl (fun b kv => pushRecord sk b kv.1 kv.2) initBuilder)

/-- The encoding of one record inside a data block: klen u16, vlen u32,
key bytes, value bytes. -/
def recEnc (r : List Nat × List Nat) : List Nat := recHdr r.1 r.2 ++ r.1 ++ r.2

/-- The record length as `pushRecord` computes it
(`recHdr.length + kb.length + vb.length`). -/
def recLen (r : List Nat × List Nat) : Nat := 6 + r.1.length + r.2.length

/-- The raw bytes of a sealed data block holding the record group `rs`:
2-byte count header, then the whole record encodings in order
(`flushBlock`'s `raw`). -/
def blockRaw (rs : List (List Nat × List Nat)) : List Nat :=
  encLE 2 rs.length ++ (rs.map recEnc).join

/-- Zero padding up to the next `BLOCK` multiple (`flushBlock`'s
`padded`). -/
def padB (l : List Nat) : List Nat :=
  l ++ List.replicate (alignUp l.length BLOCK - l.length) 0

/-- A well-formed data block: the padded encoding of a non-empty record
group whose raw bytes — the 2-byte count header plus whole, non-straddling
record encodings — fit in one `BLOCK`. -/
def goodBlock (bl : List Nat) : Prop :=
  ∃ rs : List (List Nat × List Nat), rs ≠ [] ∧ (blockRaw rs).length ≤ BLOCK ∧
    bl = padB (blockRaw rs)

/-- The block index `flushBlock` accumulates for successive record groups:
first key of each group, cumulative byte offset, padded block length. -/
def mkIndex (off : Nat) : List (List (List Nat × List Nat)) → List IndexEntry
  | [] => []
  | rs :: rest =>
    { firstKey := (rs.headD ([], [])).1, off := off, len := (padB (blockRaw rs)).length }
      :: mkIndex (off + (padB (blockRaw rs)).length) rest

/-- The builder invariant maintained by `pushRecord` and `flushBlock`:
the sealed blocks are the padded encodings of successive non-empty
record groups that fit in `BLOCK`, the index mirrors them, the open
block matches `parts`/`countInBlock`/`curSize`/`firstKey`, the closed
groups followed by the open group list every processed record in order,
and the min/max prefixes come from processed keys. -/
def BInv (sk : List Nat → List Nat) (processed : List (List Nat × List Nat))
    (b : Builder) : Prop :=
  ∃ closed opn,
    processed = closed.join ++ opn ∧
    b.blocks = closed.map (fun rs => padB (blockRaw rs)) ∧
    b.index = mkIndex 0 closed ∧
    (∀ rs ∈ closed, rs ≠ [] ∧ (blockRaw rs).length ≤ BLOCK) ∧
    b.parts.join = (opn.map recEnc).join ∧
    b.countInBlock = opn.length ∧
    b.curSize = 2 + (opn.map recLen).sum ∧
    b.curSize ≤ BLOCK ∧
    b.firstKey = opn.head?.map Prod.fst ∧
    b.entryCount = processed.length ∧
    (b.minPfx = none → processed = []) ∧
    (∀ p, b.minPfx = some p → ∃ r ∈ processed, p = sk r.1) ∧
    (b.maxPfx = none → processed = []) ∧
    (∀ p, b.maxPfx = some p → ∃ r ∈ processed, p = sk r.1)

/-- `TableMeta`. -/
structure TableMeta where
  id : List Nat
  level : Nat
  minKey : List Nat
  maxKey : List Nat
  seqMin : Nat
  seqMax : Nat
  extents : List (Nat × Nat)
  sizeBytes : Nat
  blockSize : Nat
  indexOff : Nat
  indexLen : Nat
  entryCount : Nat
  deriving DecidableEq, Repr

/-- `encodeTableMeta`: fails with invalid-key-size unless the min/max keys
are exactly 16 bytes; otherwise the little-endian header, the two keys, the
extent count, the id bytes and the extents. -/
def encodeTableMeta (m : TableMeta) : Except DbErr (List Nat) :=
  if m.minKey.length ≠ 16 ∨ m.maxKey.length ≠ 16 then .error .invalidKeySize
  else .ok (encLE 2 m.id.length ++ encLE 2 m.level ++ encLE 8 m.seqMin
    ++ encLE 8 m.seqMax ++ encLE 8 m.sizeBytes ++ encLE 4 m.blockSize
    ++ encLE 8 m.indexOff ++ encLE 4 m.indexLen ++ encLE 4 m.entryCount
    ++ m.minKey ++ m.maxKey ++ encLE 4 m.extents.length ++ m.id
    ++ (m.extents.map (fun e => encLE 8 e.1 ++ encLE 4 e.2)).join)

/-- The extent-decoding loop of `decodeTableMeta`. -/
def decodeExtents (buf : List Nat) (o : Nat) : Nat → Except DbErr (List (Nat × Nat))
  | 0 => .ok []
  | n + 1 =>
    if o + 12 > buf.length then .error .truncatedExtents
    else
      match decodeExtents buf (o + 12) n with
      | .error e => .error e
      | .ok rest => .ok ((decLE (readAt buf o 8), decLE (readAt buf (o + 8) 4)) :: rest)

/-- `decodeTableMeta`. -/
def decodeTableMeta (buf : List Nat) : Except DbErr TableMeta :=
  let idLen := decLE (readAt buf 0 2)
  let level := decLE (readAt buf 2 2)
  let seqMin := decLE (readAt buf 4 8)
  let seqMax := decLE (readAt buf 12 8)
  let sizeBytes := decLE (readAt buf 20 8)
  let blockSize := decLE (readAt buf 28 4)
  let indexOff := decLE (readAt buf 32 8)
  let indexLen := decLE (readAt buf 40 4)
  let entryCount := decLE (readAt buf 44 4)
  let minKey := readAt buf 48 16
  let maxKey := readAt buf 64 16
  let extCnt := decLE (readAt buf 80 4)
  if 84 + idLen > buf.length then .error .truncatedId
  else
    let id := readAt buf 84 idLen
    match decodeExtents buf (84 + idLen) extCnt with
    | .error e => .error e
    | .ok extents =>
      .ok { id := id, level := level, minKey := minKey, maxKey := maxKey,
            seqMin := seqMin, seqMax := seqMax, extents := extents,
            sizeBytes := sizeBytes, blockSize := blockSize, indexOff := indexOff,
            indexLen := indexLen, entryCount := entryCount }

/-- `decodeIndex`: scan index entries while a full 14-byte header fits,
stopping (tolerated padded tail) when the named key would run past the
buffer. -/
def decodeIndex (buf : List Nat) (o : Nat) : List IndexEntry :=
  if h : o + 14 ≤ buf.length then
    let klen := decLE (readAt buf o 2)
    let off := decLE (readAt buf (o + 2) 8)
    let len := decLE (readAt buf (o + 10) 4)
    if o + 14 + klen > buf.length then []
    else
      { firstKey := readAt buf (o + 14) klen, off := off, len := len }
        :: decodeIndex buf (o + 14 + klen)
  else []
termination_by buf.length - o
decreasing_by omega

/-- The output of a successful, non-empty `TableIO.flushWAL`: the admitted
entry, the encoded meta, and the composed blob written at `metaOff`. -/
structure FlushOut where
  entry : ManifestEntry
  meta : TableMeta
  full : List Nat
  deriving DecidableEq, Repr

/-- `TableIO.flushWAL(tree)`: build sorted blocks, the index and the meta
page, reserve space through `requestTable`, and write the composed blob.
`idBytes` stands for the `crypto.randomUUID()` id.  Returns the updated
manifest state, the updated file, and the flush output (`none` when the
snapshot was empty and nothing was written). -/
def flushWAL (sk : List Nat → List Nat) (st : TableState) (file : List Nat)
    (idBytes : List Nat) (snap : List (List Nat × List Nat)) :
    Except DbErr (TableState × List Nat × Option FlushOut) :=
  let b := buildAll sk snap
  if b.blocks = [] then .ok (st, file, none)
  else
    let indexRaw := (b.index.map fun e =>
      (encLE 2 e.firstKey.length ++ encLE 8 e.off ++ encLE 4 e.len) ++ e.firstKey).join
    let indexBuf := indexRaw ++ List.replicate (alignUp indexRaw.length 8 - indexRaw.length) 0
    let indexLen := indexRaw.length
    let indexLenPadded := indexBuf.length
    let blockBytes := (b.blocks.map List.length).sum
    let sizeBytes := BLOCK + indexLenPadded + blockBytes
    match requestTable st file.length 0 sizeBytes
        (b.minPfx.getD (List.replicate 16 0)) (b.maxPfx.getD (List.replicate 16 0)) with
    | .error e => .error e
    | .ok (st', entry) =>
      let metaOff := entry.metaOff
      let indexOff := metaOff + BLOCK
      let meta : TableMeta :=
        { id := idBytes, level := 0,
          minKey := b.minPfx.getD (List.replicate 16 0),
          maxKey := b.maxPfx.getD (List.replicate 16 0),
          seqMin := 0, seqMax := 0, extents := [], sizeBytes := sizeBytes,
          blockSize := BLOCK, indexOff := indexOff, indexLen := indexLen,
          entryCount := b.entryCount }
      match encodeTableMeta meta with
      | .error e => .error e
      | .ok encoded =>
        if encoded.length > BLOCK then .error .unmodelled
        else
          let alignedMetaBlock := encoded ++ List.replicate (BLOCK - encoded.length) 0
          let full := alignedMetaBlock ++ indexBuf ++ b.blocks.join
          if full.length ≠ entry.metaLen then .error .brokenTableSize
          else .ok (st', writeAt file metaOff full, some { entry := entry, meta := meta, full := full })

/-- `TableIO.readEntryHead(i)`: decode the meta page of manifest entry `i`,
decode its index region, and make the index offsets absolute. -/
def readEntryHead (st : TableState) (file : List Nat) (i : Nat) :
    Except DbErr (TableMeta × List IndexEntry) :=
  match st.entries[i]? with
  | none => .error .entryNotExist
  | some e =>
    let metaBuf := readAt file e.metaOff BLOCK
    match decodeTableMeta metaBuf with
    | .error err => .error err
    | .ok table =>
      let indexRaw := readAt file table.indexOff table.indexLen
      let idxRel := decodeIndex indexRaw 0
      let dataStart := table.indexOff + alignUp table.indexLen 8
      .ok (table, idxRel.map fun ent =>
        { firstKey := ent.firstKey, off := dataStart + ent.off, len := ent.len })

/-! ## Table reader (bundled `table.ts`, `TableReader`) -/

/-- Cursor state of a `TableReader`. -/
structure RState where
  block : List Nat
  count : Nat
  localPos : Nat
  iter : Nat
  i : Nat
  deriving DecidableEq, Repr

/-- A fresh reader. -/
def initRState : RState :=
  { block := [], count := 0, localPos := 0, iter := 0, i := 0 }

/-- `TableReader.loadBlock`. -/
def loadBlock (file : List Nat) (e : IndexEntry) (st : RState) : RState :=
  let block := readAt file e.off e.len
  { st with block := block, count := decLE (readAt block 0 2), localPos := 2, iter := 0 }

/-- `TableReader.next`: the `while (true)` loop — load the next indexed
block when the buffer is empty, drop an exhausted block, otherwise decode
one record at `localPos`. -/
def readerNext (file : List Nat) (index : List IndexEntry) (st : RState) :
    Option ((List Nat × List Nat) × RState) :=
  if hblk : st.block.length = 0 then
    if st.i ≥ index.length then none
    else readerNext file index
      (loadBlock file (index.getD st.i ⟨[], 0, 0⟩) { st with i := st.i + 1 })
  else if st.iter ≥ st.count then
    readerNext file index { st with block := [] }
  else
    let klen := decLE (readAt st.block st.localPos 2)
    let vlen := decLE (readAt st.block (st.localPos + 2) 4)
    let key := readAt st.block (st.localPos + 6) klen
    let value := readAt st.block (st.localPos + 6 + klen) vlen
    some ((key, value),
      { st with localPos := st.localPos + 6 + klen + vlen, iter := st.iter + 1 })
termination_by 2 * (index.length - st.i) + (if st.block.length = 0 then 0 else 1)
decreasing_by
  · simp only [loadBlock]
    have : st.i < index.length := by omega
    split <;> omega
  · rw [if_neg hblk]
    simp

/-- `n` calls to `TableReader.next`, collecting the yielded pairs; the
second component is `none` as soon as some call returned `null`. -/
def readerRun (file : List Nat) (index : List IndexEntry) :
    Nat → RState → List (List Nat × List Nat) × Option RState
  | 0, st => ([], some st)
  | n + 1, st =>
    match readerNext file index st with
    | none => ([], none)
    | some (kv, st') =>
      let r := readerRun file index n st'
      (kv :: r.1, r.2)

/-! ## LSM state and submission loop (bundled `lsm-tree.ts`, `event-ring.ts`) -/

/-- Byte-lexicographic strict order on keys, modelling the sorted-btree
default comparator on the (ASCII) key strings. -/
def keyLtB : List Nat → List Nat → Bool
  | _, [] => false
  | [], _ :: _ => true
  | a :: as, b :: bs => if a < b then true else if b < a then false else keyLtB as bs

/-- `memTable.set(key, value)`: insert or overwrite in the ordered map. -/
def btSet : List (List Nat × List Nat) → List Nat → List Nat → List (List Nat × List Nat)
  | [], k, v => [(k, v)]
  | (k0, v0) :: rest, k, v =>
    if k = k0 then (k, v) :: rest
    else if keyLtB k k0 then (k, v) :: (k0, v0) :: rest
    else (k0, v0) :: btSet rest k v

/-- The whole engine: WAL, superblock manager, LSM memtable state, table
writer, backing file, plus traces of the journal writes performed and the
memtable snapshots flushed (for stating the claims). -/
structure EngineState where
  wal : WalState
  sbm : SbState
  mem : List (List Nat × List Nat)
  freezeTable : Option (List (List Nat × List Nat))
  maxSize : Nat
  recoverFlush : Int
  tio : TableState
  file : List Nat
  walWrites : List (Nat × List Nat)
  flushes : List (List (List Nat × List Nat))

/-- `EventRing.submit` applied through `LSM`: `set` inserts into the live
memtable, `get` only reads, `check` performs the (deferred, unawaited)
`walManager.checkpoint(getLastLSN(), sbManager)` whose rejection is
unobserved; `del` has no case in the source switch, so its completion
promise never resolves and the loop never terminates (not modelled). -/
def applyOp (st : EngineState) (op : Operation) : Except DbErr EngineState :=
  match op.op with
  | .set => .ok { st with mem := btSet st.mem op.key op.value }
  | .get => .ok st
  | .check =>
    match walCheckpoint st.wal st.wal.lsn with
    | .error _ => .ok st
    | .ok (w, u) =>
      match sbCheckpoint st.sbm u with
      | .error _ => .ok { st with wal := w }
      | .ok s => .ok { st with wal := w, sbm := s }
  | .del => .error .unmodelled

/-- One iteration of `EventRing.runFor` on a non-empty batch: skip the WAL
append when `recoverFlush > 0` (consuming the marker), otherwise
`appendMany`; then the superblock checkpoint at the current LSN, the
per-operation applies, and the threshold-driven
freeze / flush / WAL-truncate sequence. -/
def stepBatch (sk : List Nat → List Nat) (idBytes : List Nat)
    (st : EngineState) (batch : List Operation) : Except DbErr EngineState := do
  let st1 ←
    if st.recoverFlush > 0 then
      pure { st with recoverFlush := -1 }
    else
      match appendMany st.wal batch with
      | (.error e, _, _) => throw e
      | (.ok _last, w, ws) =>
        pure { st with wal := w, walWrites := st.walWrites ++ ws,
                       file := ws.foldl (fun f wr => writeAt f wr.1 wr.2) st.file }
  let st2 ←
    match sbCheckpoint st1.sbm
        { epoch := none, checkpointLSN := st1.wal.lsn,
          jHead := st1.wal.head, jTail := st1.wal.tail } with
    | .error e => throw e
    | .ok s => pure { st1 with sbm := s }
  let st3 ← batch.foldlM applyOp st2
  if st3.mem.length ≥ st3.maxSize then
    let frozen := st3.mem
    let st4 := { st3 with freezeTable := some frozen, mem := [] }
    match flushWAL sk st4.tio st4.file idBytes frozen with
    | .error e => throw e
    | .ok (tio', file', _out) =>
      let st5 :=
        { st4 with tio := tio', file := file', flushes := st4.flushes ++ [frozen] }
      match walCheckpoint st5.wal st5.wal.lsn with
      | .error e => throw e
      | .ok (w, u) =>
        match sbCheckpoint st5.sbm u with
        | .error e => throw e
        | .ok s => pure { st5 with wal := w, sbm := s }
  else
    pure st3

/-- Successive iterations of the loop over the listed batches. -/
def runBatches (sk : List Nat → List Nat) (idBytes : List Nat) :
    EngineState → List (List Operation) → Except DbErr EngineState
  | st, [] => .ok st
  | st, b :: bs =>
    match stepBatch sk idBytes st b with
    | .error e => .error e
    | .ok st' => runBatches sk idBytes st' bs

/-- `q.takeUpTo(MAX_INFLIGHT)` batching: the queue split into chunks of at
most `MAX_INFLIGHT` operations, in order. -/
def chunked (q : List Operation) : List (List Operation) :=
  if h : q = [] then []
  else q.take MAX_INFLIGHT :: chunked (q.drop MAX_INFLIGHT)
termination_by q.length
decreasing_by
  have : q.length ≠ 0 := fun hl => h (List.eq_nil_of_length_eq_zero hl)
  simp only [List.length_drop]
  have : MAX_INFLIGHT = 8 := rfl
  omega

/-- `EventRing.runFor` over a time budget long enough to drain the given
queue: the loop repeatedly takes up to `MAX_INFLIGHT` operations and runs
one iteration per non-empty batch until the queue is empty. -/
def runForQueue (sk : List Nat → List Nat) (idBytes : List Nat)
    (st : EngineState) (q : List Operation) : Except DbErr EngineState :=
  runBatches sk idBytes st (chunked q)

/-! ## Concrete states used by the evaluation theorems -/

/-- A freshly formatted WAL with the default journal geometry
(`jStart = J_START`, `journalBytes = J_LENGTH`). -/
def freshWal : WalState :=
  { jStart := J_START, jEnd := J_START + J_LENGTH, head := J_START,
    tail := J_START, lsn := 0, lsnToEnd := [] }

/-- Two one-byte-key set operations. -/
def twoSets : List Operation :=
  [{ op := .set, key := [107], value := [104] },
   { op := .set, key := [106], value := [105] }]

/-- A backing file holding exactly one journaled set record (LSN 1,
key `k`, value `hi`) at `J_START`. -/
def journalFile : List Nat :=
  List.replicate J_START 0 ++ encodeRecord 1 1 [107] [104, 105]

/-- A one-byte-key, one-byte-value set operation (24-byte WAL record). -/
def op24 : Operation := { op := .set, key := [107], value := [104] }

/-- A second small set operation with a different key. -/
def op2b : Operation := { op := .set, key := [98], value := [120] }

/-- A constant 16-byte sort-key function used where the hash value itself
is irrelevant. -/
def sk0 : List Nat → List Nat := fun _ => List.replicate 16 0

/-- Engine state as booted after a crash: the journal holds nine records
(LSNs 1..9, 24 bytes each), the superblock recorded checkpointLSN 9, and
`LSM.recover` has set `recoverFlush` to the pre-recovery lastLSN 9 and
re-dispatched the nine scanned operations. -/
def recovered9 : EngineState :=
  { wal := { jStart := J_START, jEnd := J_START + J_LENGTH, head := J_START,
             tail := J_START + 216, lsn := 9, lsnToEnd := [] },
    sbm := sbFormatInitial J_START 7, mem := [], freezeTable := none,
    maxSize := 8, recoverFlush := 9,
    tio := { entries := [], tableTail := MANIFEST_OFF + BLOCK },
    file := [], walWrites := [], flushes := [] }

/-- A WAL whose journal region is 192 bytes (`new WAL_Manager(io,
{ journalBytes: 192 })`), freshly formatted. -/
def wal192 : WalState :=
  { jStart := J_START, jEnd := J_START + 192, head := J_START, tail := J_START,
    lsn := 0, lsnToEnd := [] }

/-- A fresh engine over `wal192`. -/
def engine192 : EngineState :=
  { wal := wal192, sbm := sbFormatInitial J_START 1, mem := [], freezeTable := none,
    maxSize := 8, recoverFlush := -1,
    tio := { entries := [], tableTail := MANIFEST_OFF + BLOCK },
    file := [], walWrites := [], flushes := [] }

/-- Eight repeated-key sets (whose records exactly fill the 192-byte
journal) followed by one more set. -/
def nineOps1 : List Operation := List.replicate 8 op24 ++ [op2b]

/-! ## Order properties of `cmp16` -/

theorem cmpAux_antisymm : ∀ (n : Nat) (a b : List Nat), cmpAux n b a = -cmpAux n a b
  | 0, _, _ => by simp [cmpAux]
  | n + 1, a, b => by
    simp only [cmpAux]
    by_cases h : ((a.headD 0 : Int) - (b.headD 0 : Int)) = 0
    · rw [if_neg (by omega), if_neg (by omega)]
      exact cmpAux_antisymm n a.tail b.tail
    · rw [if_pos (by omega), if_pos (by omega)]
      omega

theorem cmpAux_trans_le : ∀ (n : Nat) (a b c : List Nat),
    cmpAux n a b ≤ 0 → cmpAux n b c ≤ 0 → cmpAux n a c ≤ 0
  | 0, _, _, _ => by simp [cmpAux]
  | n + 1, a, b, c => by
    simp only [cmpAux]
    intro hab hbc
    split at hab <;> split at hbc <;> split <;>
      first
        | omega
        | exact cmpAux_trans_le n a.tail b.tail c.tail hab hbc

theorem cmp16_trans_le (a b c : List Nat) :
    cmp16 a b ≤ 0 → cmp16 b c ≤ 0 → cmp16 a c ≤ 0 :=
  cmpAux_trans_le 16 a b c

theorem cmp16_total (a b : List Nat) : cmp16 a b ≤ 0 ∨ cmp16 b a ≤ 0 := by
  have h := cmpAux_antisymm 16 a b
  unfold cmp16
  omega

/-! ## Weak block-builder invariant (no size bound) -/

/-- The order-only builder invariant: the sealed blocks are the padded
encodings of successive record groups, and those groups followed by the
open group list every processed record in order.  Unlike `BInv` it needs
no per-record size bound. -/
def BInvW (processed : List (List Nat × List Nat)) (b : Builder) : Prop :=
  ∃ (closed : List (List (List Nat × List Nat))) (opn : List (List Nat × List Nat)),
    processed = closed.join ++ opn ∧
    b.blocks = closed.map (fun rs => padB (blockRaw rs)) ∧
    b.parts.join = (opn.map recEnc).join ∧
    b.countInBlock = opn.length

theorem flushBlock_closesW (processed : List (List Nat × List Nat)) (b : Builder)
    (hb : BInvW processed b) :
    ∃ closed : List (List (List Nat × List Nat)),
      processed = closed.join ∧
      (flushBlock b).blocks = closed.map (fun rs => padB (blockRaw rs)) ∧
      (flushBlock b).parts.join = [] ∧
      (flushBlock b).countInBlock = 0 := by
  obtain ⟨closed, opn, hproc, hblocks, hparts, hcount⟩ := hb
  by_cases h0 : b.countInBlock = 0
  · have hopn : opn = [] := by
      rw [h0] at hcount
      exact List.length_eq_zero.mp hcount.symm
    subst hopn
    refine ⟨closed, by simpa using hproc, ?_⟩
    rw [flushBlock, if_pos h0]
    exact ⟨hblocks, by simpa using hparts, h0⟩
  · have hraw : encLE 2 b.countInBlock ++ b.parts.join = blockRaw opn := by
      rw [hcount, hparts, blockRaw]
    refine ⟨closed ++ [opn], by simpa [List.join_append] using hproc, ?_⟩
    rw [flushBlock, if_neg h0]
    refine ⟨?_, by simp, rfl⟩
    simp only [hblocks, hraw]
    simp [padB]

theorem pushRecord_invW (sk : List Nat → List Nat)
    (processed : List (List Nat × List Nat)) (b : Builder) (k v : List Nat)
    (hb : BInvW processed b) : BInvW (processed ++ [(k, v)]) (pushRecord sk b k v) := by
  by_cases hov : b.curSize + (6 + k.length + v.length) > BLOCK
  · obtain ⟨closed1, hproc1, hblocks1, hparts1, hcount1⟩ := flushBlock_closesW processed b hb
    refine ⟨closed1, [(k, v)], by simpa using hproc1, ?_, ?_, ?_⟩
    · simp only [pushRecord]
      rw [if_pos hov]
      simpa using hblocks1
    · simp only [pushRecord]
      rw [if_pos hov]
      simp only [List.join_append, hparts1]
      simp [recEnc, List.append_assoc]
    · simp only [pushRecord]
      rw [if_pos hov]
      simp [hcount1]
  · obtain ⟨closed, opn, hproc, hblocks, hparts, hcount⟩ := hb
    refine ⟨closed, opn ++ [(k, v)], by rw [hproc]; simp [List.append_assoc], ?_, ?_, ?_⟩
    · simp only [pushRecord]
      rw [if_neg hov]
      exact hblocks
    · simp only [pushRecord]
      rw [if_neg hov]
      simp only [List.join_append, hparts, List.map_append]
      simp [recEnc, List.append_assoc]
    · simp only [pushRecord]
      rw [if_neg hov]
      simp [hcount]

theorem foldl_push_invW (sk : List Nat → List Nat) :
    ∀ (l : List (List Nat × List Nat)) (processed : List (List Nat × List Nat)) (b : Builder),
      BInvW processed b →
      BInvW (processed ++ l) (l.foldl (fun b kv => pushRecord sk b kv.1 kv.2) b)
  | [], processed, b, hb => by simpa using hb
  | r :: l, processed, b, hb => by
    rw [List.foldl_cons]
    have h2 := foldl_push_invW sk l (processed ++ [r]) _ (pushRecord_invW sk processed b r.1 r.2 hb)
    simpa [List.append_assoc] using h2

theorem buildAll_recs (sk : List Nat → List Nat) (snap : List (List Nat × List Nat)) :
    ∃ closed : List (List (List Nat × List Nat)),
      (buildAll sk snap).blocks = closed.map (fun rs => padB (blockRaw rs)) ∧
      closed.join = sortRecs sk snap := by
  have h0 : BInvW [] initBuilder := ⟨[], [], by simp [initBuilder]⟩
  have hf := foldl_push_invW sk (sortRecs sk snap) [] initBuilder h0
  rw [List.nil_append] at hf
  obtain ⟨closed1, hproc1, hblocks1, -, -⟩ := flushBlock_closesW _ _ hf
  have hfb : flushBlock ((sortRecs sk snap).foldl
      (fun b kv => pushRecord sk b kv.1 kv.2) initBuilder) = buildAll sk snap := rfl
  rw [hfb] at hblocks1
  exact ⟨closed1, hblocks1, hproc1.symm⟩

/-! ## Block-builder invariant lemmas -/

theorem length_recEnc (r : List Nat × List Nat) : (recEnc r).length = recLen r := by
  simp [recEnc, recHdr, recLen]
  omega

theorem length_blockRaw (rs : List (List Nat × List Nat)) :
    (blockRaw rs).length = 2 + (rs.map recLen).sum := by
  simp [blockRaw, List.length_join, List.map_map, Function.comp_def, length_recEnc]

theorem mkIndex_append (c1 c2 : List (List (List Nat × List Nat))) (o : Nat) :
    mkIndex o (c1 ++ c2) =
      mkIndex o c1 ++
        mkIndex (o + ((c1.map (fun rs => (padB (blockRaw rs)).length)).sum)) c2 := by
  induction c1 generalizing o with
  | nil => simp [mkIndex]
  | cons rs rest ih =>
    simp only [List.cons_append, mkIndex, List.map_cons, List.sum_cons, List.append_eq, ih,
      Nat.add_assoc]

theorem flushBlock_closes (sk : List Nat → List Nat)
    (processed : List (List Nat × List Nat)) (b : Builder)
    (hb : BInv sk processed b) :
    ∃ closed,
      processed = closed.join ∧
      (flushBlock b).blocks = closed.map (fun rs => padB (blockRaw rs)) ∧
      (flushBlock b).index = mkIndex 0 closed ∧
      (∀ rs ∈ closed, rs ≠ [] ∧ (blockRaw rs).length ≤ BLOCK) ∧
      (flushBlock b).parts.join = [] ∧
      (flushBlock b).countInBlock = 0 ∧
      (flushBlock b).curSize = 2 ∧
      (flushBlock b).firstKey = none ∧
      (flushBlock b).entryCount = processed.length ∧
      (flushBlock b).minPfx = b.minPfx ∧
      (flushBlock b).maxPfx = b.maxPfx := by
  obtain ⟨closed, opn, hproc, hblocks, hindex, hgood, hparts, hcount, hcur, hle, hfk, hec,
    hmn, hmw, hxn, hxw⟩ := hb
  by_cases h0 : b.countInBlock = 0
  · have hopn : opn = [] := by
      rw [h0] at hcount
      exact (List.length_eq_zero.mp hcount.symm)
    subst hopn
    refine ⟨closed, by simpa using hproc, ?_⟩
    rw [flushBlock, if_pos h0]
    refine ⟨hblocks, hindex, hgood, by simpa using hparts, h0, by simpa using hcur, ?_, hec,
      rfl, rfl⟩
    simpa using hfk
  · have hopn : opn ≠ [] := by
      intro h
      rw [h] at hcount
      simp at hcount
      exact h0 hcount
    obtain ⟨r0, opn', hr0⟩ := List.exists_cons_of_ne_nil hopn
    refine ⟨closed ++ [opn], by simpa [List.join_append] using hproc, ?_⟩
    rw [flushBlock, if_neg h0]
    have hraw : encLE 2 b.countInBlock ++ b.parts.join = blockRaw opn := by
      rw [hcount, hparts, blockRaw]
    have hrawlen : (blockRaw opn).length ≤ BLOCK := by
      rw [length_blockRaw, ← hcur]
      exact hle
    constructor
    · simp only [hblocks, hraw]
      simp [padB]
    constructor
    · have hfk2 : b.firstKey.getD [] = (opn.headD ([], [])).1 := by
        rw [hfk, hr0]
        rfl
      have hoff : (b.blocks.map List.length).sum =
          (closed.map (fun rs => (padB (blockRaw rs)).length)).sum := by
        rw [hblocks, List.map_map]
        rfl
      rw [hindex, mkIndex_append]
      simp [mkIndex, hraw, hoff, hfk2, padB]
    constructor
    · intro rs hrs
      rcases List.mem_append.mp hrs with h | h
      · exact hgood rs h
      · simp at h
        subst h
        exact ⟨hopn, hrawlen⟩
    refine ⟨by simp, rfl, rfl, rfl, hec, rfl, rfl⟩

theorem pushRecord_inv (sk : List Nat → List Nat)
    (processed : List (List Nat × List Nat)) (b : Builder) (k v : List Nat)
    (hb : BInv sk processed b) (hr : 6 + k.length + v.length ≤ BLOCK - 2) :
    BInv sk (processed ++ [(k, v)]) (pushRecord sk b k v) := by
  have hB : BLOCK = 4096 := rfl
  obtain ⟨closed, opn, hproc, hblocks, hindex, hgood, hparts, hcount, hcur, hle, hfk, hec,
    hmn, hmw, hxn, hxw⟩ := hb
  by_cases hov : b.curSize + (6 + k.length + v.length) > BLOCK
  · obtain ⟨closed1, hproc1, hblocks1, hindex1, hgood1, hparts1, hcount1, hcur1, hfk1, hec1,
      hmn1, hmx1⟩ := flushBlock_closes sk processed b
        ⟨closed, opn, hproc, hblocks, hindex, hgood, hparts, hcount, hcur, hle, hfk, hec,
          hmn, hmw, hxn, hxw⟩
    refine ⟨closed1, [(k, v)], ?_, ?_, ?_, hgood1, ?_, ?_, ?_, ?_, ?_, ?_, ?_, ?_, ?_, ?_⟩
    · simpa using hproc1
    · simp only [pushRecord]
      rw [if_pos hov]
      simpa using hblocks1
    · simp only [pushRecord]
      rw [if_pos hov]
      simpa using hindex1
    · simp only [pushRecord]
      rw [if_pos hov]
      simp only [List.join_append, hparts1]
      simp [recEnc, List.append_assoc]
    · simp only [pushRecord]
      rw [if_pos hov]
      simp [hcount1]
    · simp only [pushRecord]
      rw [if_pos hov]
      simp [hcur1, recLen]
    · simp only [pushRecord]
      rw [if_pos hov]
      simp only [hcur1]
      omega
    · simp only [pushRecord]
      rw [if_pos hov]
      simp [hfk1]
    · simp only [pushRecord]
      rw [if_pos hov]
      simp [hec1]
    · simp only [pushRecord]
      simp
    · intro p hp
      simp only [pushRecord] at hp
      rw [if_pos hov] at hp
      simp only [Option.some.injEq] at hp
      rw [hmn1] at hp
      rcases hq : b.minPfx with _ | q
      · rw [hq] at hp
        dsimp only at hp
        exact ⟨(k, v), by simp, by simp [← hp]⟩
      · rw [hq] at hp
        dsimp only at hp
        by_cases hlt : lt16 (sk k) q
        · rw [if_pos hlt] at hp
          exact ⟨(k, v), by simp, by simp [← hp]⟩
        · rw [if_neg hlt] at hp
          obtain ⟨r, hrmem, hrp⟩ := hmw q hq
          exact ⟨r, List.mem_append_left _ hrmem, hp ▸ hrp⟩
    · simp only [pushRecord]
      simp
    · intro p hp
      simp only [pushRecord] at hp
      rw [if_pos hov] at hp
      simp only [Option.some.injEq] at hp
      rw [hmx1] at hp
      rcases hq : b.maxPfx with _ | q
      · rw [hq] at hp
        dsimp only at hp
        exact ⟨(k, v), by simp, by simp [← hp]⟩
      · rw [hq] at hp
        dsimp only at hp
        by_cases hgt : gt16 (sk k) q
        · rw [if_pos hgt] at hp
          exact ⟨(k, v), by simp, by simp [← hp]⟩
        · rw [if_neg hgt] at hp
          obtain ⟨r, hrmem, hrp⟩ := hxw q hq
          exact ⟨r, List.mem_append_left _ hrmem, hp ▸ hrp⟩
  · refine ⟨closed, opn ++ [(k, v)], ?_, ?_, ?_, hgood, ?_, ?_, ?_, ?_, ?_, ?_, ?_, ?_, ?_, ?_⟩
    · rw [hproc]
      simp [List.append_assoc]
    · simp only [pushRecord]
      rw [if_neg hov]
      exact hblocks
    · simp only [pushRecord]
      rw [if_neg hov]
      exact hindex
    · simp only [pushRecord]
      rw [if_neg hov]
      simp only [List.join_append, hparts, List.map_append]
      simp [recEnc, List.append_assoc]
    · simp only [pushRecord]
      rw [if_neg hov]
      simp [hcount]
    · simp only [pushRecord]
      rw [if_neg hov]
      simp [hcur, recLen]
      omega
    · simp only [pushRecord]
      rw [if_neg hov]
      omega
    · simp only [pushRecord]
      rw [if_neg hov]
      rcases opn with _ | ⟨r0, t⟩
      · simp only [List.head?] at hfk
        simp [hfk]
      · simp only [List.head?, Option.map_some'] at hfk
        simp [hfk]
    · simp only [pushRecord]
      rw [if_neg hov]
      simp [hec]
    · simp only [pushRecord]
      simp
    · intro p hp
      simp only [pushRecord] at hp
      rw [if_neg hov] at hp
      simp only [Option.some.injEq] at hp
      rcases hq : b.minPfx with _ | q
      · rw [hq] at hp
        dsimp only at hp
        exact ⟨(k, v), by simp, by simp [← hp]⟩
      · rw [hq] at hp
        dsimp only at hp
        by_cases hlt : lt16 (sk k) q
        · rw [if_pos hlt] at hp
          exact ⟨(k, v), by simp, by simp [← hp]⟩
        · rw [if_neg hlt] at hp
          obtain ⟨r, hrmem, hrp⟩ := hmw q hq
          exact ⟨r, List.mem_append_left _ hrmem, hp ▸ hrp⟩
    · simp only [pushRecord]
      simp
    · intro p hp
      simp only [pushRecord] at hp
      rw [if_neg hov] at hp
      simp only [Option.some.injEq] at hp
      rcases hq : b.maxPfx with _ | q
      · rw [hq] at hp
        dsimp only at hp
        exact ⟨(k, v), by simp, by simp [← hp]⟩
      · rw [hq] at hp
        dsimp only at hp
        by_cases hgt : gt16 (sk k) q
        · rw [if_pos hgt] at hp
          exact ⟨(k, v), by simp, by simp [← hp]⟩
        · rw [if_neg hgt] at hp
          obtain ⟨r, hrmem, hrp⟩ := hxw q hq
          exact ⟨r, List.mem_append_left _ hrmem, hp ▸ hrp⟩

theorem foldl_push_inv (sk : List Nat → List Nat) :
    ∀ (l : List (List Nat × List Nat)) (processed : List (List Nat × List Nat)) (b : Builder),
      BInv sk processed b →
      (∀ r ∈ l, 6 + r.1.length + r.2.length ≤ BLOCK - 2) →
      BInv sk (processed ++ l) (l.foldl (fun b kv => pushRecord sk b kv.1 kv.2) b)
  | [], processed, b, hb, _ => by simpa using hb
  | r :: l, processed, b, hb, hl => by
    rw [List.foldl_cons]
    have h1 := pushRecord_inv sk processed b r.1 r.2 hb (hl r (by simp))
    have h2 := foldl_push_inv sk l (processed ++ [r]) _ (by simpa using h1)
      (fun x hx => hl x (by simp [hx]))
    simpa [List.append_assoc] using h2

theorem initBuilder_inv (sk : List Nat → List Nat) : BInv sk [] initBuilder := by
  refine ⟨[], [], ?_⟩
  simp [initBuilder, mkIndex, BLOCK]

theorem buildAll_inv (sk : List Nat → List Nat) (snap : List (List Nat × List Nat))
    (h : ∀ r ∈ snap, 6 + r.1.length + r.2.length ≤ BLOCK - 2) :
    ∃ closed,
      sortRecs sk snap = closed.join ∧
      (buildAll sk snap).blocks = closed.map (fun rs => padB (blockRaw rs)) ∧
      (buildAll sk snap).index = mkIndex 0 closed ∧
      (∀ rs ∈ closed, rs ≠ [] ∧ (blockRaw rs).length ≤ BLOCK) ∧
      (buildAll sk snap).entryCount = snap.length ∧
      ((buildAll sk snap).minPfx = none → snap = []) ∧
      (∀ p, (buildAll sk snap).minPfx = some p → ∃ r ∈ snap, p = sk r.1) ∧
      ((buildAll sk snap).maxPfx = none → snap = []) ∧
      (∀ p, (buildAll sk snap).maxPfx = some p → ∃ r ∈ snap, p = sk r.1) := by
  have hperm : (sortRecs sk snap).Perm snap := List.mergeSort_perm snap _
  have hs : ∀ r ∈ sortRecs sk snap, 6 + r.1.length + r.2.length ≤ BLOCK - 2 :=
    fun r hr => h r (hperm.mem_iff.mp hr)
  have hfold := foldl_push_inv sk (sortRecs sk snap) [] initBuilder (initBuilder_inv sk) hs
  rw [List.nil_append] at hfold
  obtain ⟨closed1, hproc1, hblocks1, hindex1, hgood1, _, _, _, hfk1, hec1, hmn1, hmx1⟩ :=
    flushBlock_closes sk _ _ hfold
  have hfb : flushBlock ((sortRecs sk snap).foldl
      (fun b kv => pushRecord sk b kv.1 kv.2) initBuilder) = buildAll sk snap := rfl
  rw [hfb] at hblocks1 hindex1 hfk1 hec1 hmn1 hmx1
  obtain ⟨_, _, _, _, _, _, _, _, _, _, _, hecf, hmnf, hmwf, hxnf, hxwf⟩ := hfold
  refine ⟨closed1, hproc1, hblocks1, hindex1, hgood1, ?_, ?_, ?_, ?_, ?_⟩
  · exact hec1.trans hperm.length_eq
  · intro hnone
    rw [hmn1] at hnone
    have := hmnf hnone
    have hlen := hperm.length_eq
    rw [this] at hlen
    exact List.length_eq_zero.mp hlen.symm
  · intro p hp
    rw [hmn1] at hp
    obtain ⟨r, hrm, hrp⟩ := hmwf p hp
    exact ⟨r, hperm.mem_iff.mp hrm, hrp⟩
  · intro hnone
    rw [hmx1] at hnone
    have := hxnf hnone
    have hlen := hperm.length_eq
    rw [this] at hlen
    exact List.length_eq_zero.mp hlen.symm
  · intro p hp
    rw [hmx1] at hp
    obtain ⟨r, hrm, hrp⟩ := hxwf p hp
    exact ⟨r, hperm.mem_iff.mp hrm, hrp⟩

/-! ## Reader round-trip lemmas -/

theorem readAt_append_left (a b : List Nat) (o n : Nat) (h : o + n ≤ a.length) :
    readAt (a ++ b) o n = readAt a o n := by
  unfold readAt
  rw [List.drop_append_of_le_length (by omega), List.take_append_of_le_length]
  simp
  omega

theorem readAt_sub (buf s : List Nat) (o m a b : Nat) (h : readAt buf o m = s)
    (hab : a + b ≤ m) : readAt buf (o + a) b = readAt s a b := by
  subst h
  unfold readAt
  rw [List.drop_take, List.take_take, List.drop_drop, Nat.min_eq_left (by omega)]

theorem alignUp_ge (n a : Nat) (ha : 0 < a) : n ≤ alignUp n a := by
  have := Nat.mod_lt (n + (a - 1)) ha
  unfold alignUp
  omega

theorem padB_length (l : List Nat) : (padB l).length = alignUp l.length BLOCK := by
  have := alignUp_ge l.length BLOCK (by norm_num [BLOCK])
  simp only [padB, List.length_append, List.length_replicate]
  omega

theorem blockRaw_length_pos (rs : List (List Nat × List Nat)) :
    2 ≤ (blockRaw rs).length := by
  rw [length_blockRaw]
  omega

theorem padB_length_pos (rs : List (List Nat × List Nat)) :
    ¬ (padB (blockRaw rs)).length = 0 := by
  have h1 := blockRaw_length_pos rs
  simp only [padB, List.length_append, List.length_replicate]
  omega

theorem readAt_padB (l : List Nat) (o n : Nat) (h : o + n ≤ l.length) :
    readAt (padB l) o n = readAt l o n :=
  readAt_append_left l _ o n h

/-- The byte offset of the `i`-th record inside a data block (2-byte count
header plus the previous records). -/
def posAt (rs : List (List Nat × List Nat)) (i : Nat) : Nat :=
  2 + ((rs.take i).map recLen).sum

theorem posAt_zero (rs : List (List Nat × List Nat)) : posAt rs 0 = 2 := by
  simp [posAt]

theorem posAt_succ (rs : List (List Nat × List Nat)) (i : Nat) (hi : i < rs.length) :
    posAt rs (i + 1) = posAt rs i + recLen (rs.get ⟨i, hi⟩) := by
  unfold posAt
  rw [List.map_take, List.map_take, List.sum_take_succ _ i (by simpa using hi)]
  · simp
    omega

theorem sum_take_le (l : List Nat) (i : Nat) : (l.take i).sum ≤ l.sum := by
  conv_rhs => rw [← List.take_append_drop i l]
  rw [List.sum_append]
  omega

theorem posAt_le (rs : List (List Nat × List Nat)) (i : Nat) :
    posAt rs i ≤ (blockRaw rs).length := by
  rw [length_blockRaw]
  unfold posAt
  have : ((rs.take i).map recLen).sum ≤ (rs.map recLen).sum := by
    rw [List.map_take]
    exact sum_take_le _ _
  omega

theorem recLen_le_sum (rs : List (List Nat × List Nat)) (i : Nat) (hi : i < rs.length) :
    recLen (rs.get ⟨i, hi⟩) ≤ (rs.map recLen).sum := by
  have h1 := posAt_succ rs i hi
  have h2 := posAt_le rs (i + 1)
  rw [length_blockRaw] at h2
  unfold posAt at h1 h2
  omega

theorem recLen_ge (r : List Nat × List Nat) : 6 ≤ recLen r := by
  unfold recLen
  omega

theorem six_mul_length_le_sum (rs : List (List Nat × List Nat)) :
    6 * rs.length ≤ (rs.map recLen).sum := by
  induction rs with
  | nil => simp
  | cons r t ih =>
    have := recLen_ge r
    simp only [List.map_cons, List.sum_cons, List.length_cons]
    omega

theorem join_slice : ∀ (l : List (List Nat)) (i : Nat) (hi : i < l.length),
    readAt l.join (((l.take i).map List.length).sum) (l.get ⟨i, hi⟩).length = l.get ⟨i, hi⟩
  | a :: t, 0, _ => by
    simp only [List.join, List.flatten_cons, List.take_zero, List.map_nil, List.sum_nil,
      List.get]
    exact readAt_take a t.flatten _ rfl
  | a :: t, i + 1, hi => by
    simp only [List.join, List.flatten_cons, List.take_succ_cons, List.map_cons,
      List.sum_cons, List.get]
    rw [readAt_append_right a t.flatten _ _ (by omega)]
    have h2 : a.length + ((t.take i).map List.length).sum - a.length
        = ((t.take i).map List.length).sum := by omega
    rw [h2]
    exact join_slice t i (by simpa using hi)

theorem blockRaw_slice (rs : List (List Nat × List Nat)) (i : Nat) (hi : i < rs.length) :
    readAt (blockRaw rs) (posAt rs i) (recLen (rs.get ⟨i, hi⟩))
      = recEnc (rs.get ⟨i, hi⟩) := by
  unfold blockRaw posAt
  rw [readAt_append_right _ _ _ _ (by simp)]
  have h2 : 2 + ((rs.take i).map recLen).sum - (encLE 2 rs.length).length
      = (((rs.map recEnc).take i).map List.length).sum := by
    simp [← List.map_take, List.map_map, Function.comp_def, length_recEnc]
  rw [h2]
  have h3 : recLen (rs.get ⟨i, hi⟩) = ((rs.map recEnc).get ⟨i, by simpa using hi⟩).length := by
    simp [length_recEnc]
  rw [h3]
  rw [join_slice (rs.map recEnc) i (by simpa using hi)]
  simp

theorem blockRaw_count (rs : List (List Nat × List Nat)) :
    readAt (blockRaw rs) 0 2 = encLE 2 rs.length := by
  unfold blockRaw
  exact readAt_take _ _ _ (by simp)

theorem recEnc_klen (r : List Nat × List Nat) :
    readAt (recEnc r) 0 2 = encLE 2 r.1.length := by
  unfold recEnc recHdr
  rw [List.append_assoc, List.append_assoc]
  exact readAt_take _ _ _ (by simp)

theorem recEnc_vlen (r : List Nat × List Nat) :
    readAt (recEnc r) 2 4 = encLE 4 r.2.length := by
  unfold recEnc recHdr
  rw [List.append_assoc, List.append_assoc]
  rw [readAt_append_right _ _ _ _ (by simp)]
  simp only [encLE_length]
  norm_num
  exact readAt_take _ _ _ (by simp)

theorem recEnc_key (r : List Nat × List Nat) :
    readAt (recEnc r) 6 r.1.length = r.1 := by
  unfold recEnc recHdr
  rw [List.append_assoc, List.append_assoc]
  rw [readAt_append_right (encLE 2 r.1.length) _ 6 r.1.length (by simp)]
  simp only [encLE_length]
  norm_num
  rw [readAt_append_right (encLE 4 r.2.length) _ 4 r.1.length (by simp)]
  simp only [encLE_length]
  norm_num
  exact readAt_take _ _ _ rfl

theorem recEnc_value (r : List Nat × List Nat) :
    readAt (recEnc r) (6 + r.1.length) r.2.length = r.2 := by
  unfold recEnc recHdr
  rw [List.append_assoc, List.append_assoc]
  rw [readAt_append_right _ _ _ _ (by simp; omega)]
  simp only [encLE_length]
  rw [readAt_append_right _ _ _ _ (by simp; omega)]
  simp only [encLE_length]
  rw [readAt_append_right _ _ _ _ (by omega)]
  have h4 : 6 + r.1.length - 2 - 4 - r.1.length = 0 := by omega
  rw [h4]
  exact readAt_all _ _ (le_refl _)

/-- One record-yield step of `TableReader.next` inside a loaded block. -/
theorem readerNext_yield (file : List Nat) (idx : List IndexEntry)
    (rs : List (List Nat × List Nat)) (i j : Nat) (hi : i < rs.length)
    (hsz : (blockRaw rs).length ≤ BLOCK) :
    readerNext file idx
        { block := padB (blockRaw rs), count := rs.length,
          localPos := posAt rs i, iter := i, i := j } =
      some (rs.get ⟨i, hi⟩,
        { block := padB (blockRaw rs), count := rs.length,
          localPos := posAt rs (i + 1), iter := i + 1, i := j }) := by
  have hfit : posAt rs i + recLen (rs.get ⟨i, hi⟩) ≤ (blockRaw rs).length := by
    have h1 := posAt_succ rs i hi
    have h2 := posAt_le rs (i + 1)
    omega
  have hrec : readAt (padB (blockRaw rs)) (posAt rs i) (recLen (rs.get ⟨i, hi⟩))
      = recEnc (rs.get ⟨i, hi⟩) := by
    rw [readAt_padB _ _ _ hfit]
    exact blockRaw_slice rs i hi
  have hkb : (rs.get ⟨i, hi⟩).1.length < 256 ^ 2 := by
    have h1 := recLen_le_sum rs i hi
    have h2 := length_blockRaw rs
    have h4 : recLen (rs.get ⟨i, hi⟩)
        = 6 + (rs.get ⟨i, hi⟩).1.length + (rs.get ⟨i, hi⟩).2.length := rfl
    have hB : BLOCK = 4096 := rfl
    omega
  have hvb : (rs.get ⟨i, hi⟩).2.length < 256 ^ 4 := by
    have h1 := recLen_le_sum rs i hi
    have h2 := length_blockRaw rs
    have h4 : recLen (rs.get ⟨i, hi⟩)
        = 6 + (rs.get ⟨i, hi⟩).1.length + (rs.get ⟨i, hi⟩).2.length := rfl
    have hB : BLOCK = 4096 := rfl
    omega
  have hk : readAt (padB (blockRaw rs)) (posAt rs i + 0) 2 = encLE 2 (rs.get ⟨i, hi⟩).1.length := by
    rw [readAt_sub _ _ _ _ 0 2 hrec (by have := recLen_ge (rs.get ⟨i, hi⟩); omega)]
    exact recEnc_klen _
  rw [Nat.add_zero] at hk
  have hv : readAt (padB (blockRaw rs)) (posAt rs i + 2) 4
      = encLE 4 (rs.get ⟨i, hi⟩).2.length := by
    rw [readAt_sub _ _ _ _ 2 4 hrec (by have := recLen_ge (rs.get ⟨i, hi⟩); omega)]
    exact recEnc_vlen _
  have hkey : readAt (padB (blockRaw rs)) (posAt rs i + 6) (rs.get ⟨i, hi⟩).1.length
      = (rs.get ⟨i, hi⟩).1 := by
    rw [readAt_sub _ _ _ _ 6 (rs.get ⟨i, hi⟩).1.length hrec (by unfold recLen; omega)]
    exact recEnc_key _
  have hval : readAt (padB (blockRaw rs)) (posAt rs i + 6 + (rs.get ⟨i, hi⟩).1.length)
      (rs.get ⟨i, hi⟩).2.length = (rs.get ⟨i, hi⟩).2 := by
    rw [Nat.add_assoc]
    rw [readAt_sub _ _ _ _ (6 + (rs.get ⟨i, hi⟩).1.length) (rs.get ⟨i, hi⟩).2.length hrec
      (by unfold recLen; omega)]
    exact recEnc_value _
  rw [readerNext]
  rw [dif_neg (by simpa using padB_length_pos rs)]
  rw [if_neg (by simp; omega)]
  simp only [hk, decLE_encLE_of_lt hkb, hv, decLE_encLE_of_lt hvb, hkey, hval]
  rw [posAt_succ rs i hi]
  simp only [Option.some.injEq, Prod.mk.injEq, RState.mk.injEq, Prod.mk.eta, true_and,
    and_true]
  unfold recLen
  omega

/-- The block-exhausted step of `TableReader.next`: an emptied buffer. -/
theorem readerNext_exhaust (file : List Nat) (idx : List IndexEntry)
    (rs : List (List Nat × List Nat)) (j p it : Nat) (hit : rs.length ≤ it) :
    readerNext file idx
        { block := padB (blockRaw rs), count := rs.length,
          localPos := p, iter := it, i := j } =
      readerNext file idx
        { block := [], count := rs.length, localPos := p, iter := it, i := j } := by
  rw [readerNext]
  rw [dif_neg (by simpa using padB_length_pos rs)]
  rw [if_pos (by simp; omega)]

/-- The load step of `TableReader.next` on an empty buffer. -/
theorem readerNext_load (file : List Nat) (idx : List IndexEntry) (st : RState)
    (hblk : st.block = []) (hj : st.i < idx.length) :
    readerNext file idx st =
      readerNext file idx
        (loadBlock file (idx.getD st.i ⟨[], 0, 0⟩) { st with i := st.i + 1 }) := by
  rw [readerNext]
  rw [dif_pos (by simp [hblk])]
  rw [if_neg (by omega)]

/-- The terminal step of `TableReader.next`: empty buffer, no blocks left. -/
theorem readerNext_done (file : List Nat) (idx : List IndexEntry) (st : RState)
    (hblk : st.block = []) (hj : idx.length ≤ st.i) :
    readerNext file idx st = none := by
  rw [readerNext]
  rw [dif_pos (by simp [hblk])]
  rw [if_pos (by omega)]

theorem readerRun_congr (file : List Nat) (idx : List IndexEntry) (n : Nat)
    (st st2 : RState) (h : readerNext file idx st = readerNext file idx st2) :
    readerRun file idx (n + 1) st = readerRun file idx (n + 1) st2 := by
  simp only [readerRun, h]

theorem loadBlock_eval (file : List Nat) (e : IndexEntry) (st : RState)
    (rs : List (List Nat × List Nat))
    (hread : readAt file e.off e.len = padB (blockRaw rs))
    (hsz : (blockRaw rs).length ≤ BLOCK) :
    loadBlock file e st =
      { block := padB (blockRaw rs), count := rs.length, localPos := 2, iter := 0,
        i := st.i } := by
  have hcnt : readAt (padB (blockRaw rs)) 0 2 = encLE 2 rs.length := by
    rw [readAt_padB _ _ _ (blockRaw_length_pos rs)]
    exact blockRaw_count rs
  have hlen : rs.length < 256 ^ 2 := by
    have h1 := six_mul_length_le_sum rs
    have h2 := length_blockRaw rs
    have hB : BLOCK = 4096 := rfl
    omega
  simp only [loadBlock, hread, hcnt, decLE_encLE_of_lt hlen]

theorem readerRun_inblock (file : List Nat) (idx : List IndexEntry)
    (rs : List (List Nat × List Nat)) (j : Nat) (hsz : (blockRaw rs).length ≤ BLOCK) :
    ∀ (d i : Nat), i + d = rs.length → ∀ (n : Nat),
      readerRun file idx (d + n)
          { block := padB (blockRaw rs), count := rs.length,
            localPos := posAt rs i, iter := i, i := j } =
        ((rs.drop i) ++ (readerRun file idx n
            { block := padB (blockRaw rs), count := rs.length,
              localPos := posAt rs rs.length, iter := rs.length, i := j }).1,
         (readerRun file idx n
            { block := padB (blockRaw rs), count := rs.length,
              localPos := posAt rs rs.length, iter := rs.length, i := j }).2)
  | 0, i, hd, n => by
    have hi : i = rs.length := by omega
    subst hi
    simp only [Nat.zero_add, List.drop_length, List.nil_append]
  | d + 1, i, hd, n => by
    have hi : i < rs.length := by omega
    have hstep := readerNext_yield file idx rs i j hi hsz
    rw [show d + 1 + n = (d + n) + 1 from by omega]
    simp only [readerRun, hstep]
    rw [readerRun_inblock file idx rs j hsz d (i + 1) (by omega) n]
    have hdrop : rs.drop i = rs.get ⟨i, hi⟩ :: rs.drop (i + 1) := by
      rw [List.drop_eq_getElem_cons hi]
      simp
    rw [hdrop]
    rfl

theorem readerRun_drain (file : List Nat) (idx : List IndexEntry) :
    ∀ (closed : List (List (List Nat × List Nat))) (st : RState),
      st.block = [] →
      idx.length = st.i + closed.length →
      (∀ t (ht : t < closed.length),
        readAt file (idx.getD (st.i + t) ⟨[], 0, 0⟩).off
            (idx.getD (st.i + t) ⟨[], 0, 0⟩).len
          = padB (blockRaw (closed.get ⟨t, ht⟩)) ∧
        (blockRaw (closed.get ⟨t, ht⟩)).length ≤ BLOCK) →
      readerRun file idx (closed.join.length + 1) st = (closed.join, none)
  | [], st, hblk, hlen, _ => by
    have hnone := readerNext_done file idx st hblk (by simp at hlen; omega)
    simp [readerRun, hnone]
  | rs :: rest, st, hblk, hlen, hslice => by
    have hlen2 : (rs :: rest).length = rest.length + 1 := by simp
    obtain ⟨hread0, hsz0⟩ := hslice 0 (by simp)
    rw [Nat.add_zero] at hread0
    have hload := readerNext_load file idx st hblk (by simp at hlen; omega)
    have hle := loadBlock_eval file (idx.getD st.i ⟨[], 0, 0⟩)
      { st with i := st.i + 1 } rs hread0 hsz0
    rw [hle] at hload
    have hcount : (rs :: rest).join.length + 1
        = (rs.length + rest.join.length) + 1 := by
      simp [List.flatten_cons]
    rw [hcount]
    rw [readerRun_congr file idx (rs.length + rest.join.length) st _ hload]
    have h2 : rs.length + rest.join.length + 1 = rs.length + (rest.join.length + 1) := by
      omega
    rw [h2]
    have hin := readerRun_inblock file idx rs (st.i + 1) hsz0 rs.length 0 (by omega)
      (rest.join.length + 1)
    rw [posAt_zero] at hin
    rw [hin]
    have hex := readerNext_exhaust file idx rs (st.i + 1) (posAt rs rs.length) rs.length
      (le_refl _)
    have hrest := readerRun_drain file idx rest
      { block := [], count := rs.length, localPos := posAt rs rs.length,
        iter := rs.length, i := st.i + 1 }
      rfl (by simp at hlen ⊢; omega)
      (by
        intro t ht
        have := hslice (t + 1) (by simp; omega)
        rw [show st.i + (t + 1) = st.i + 1 + t from by omega] at this
        simpa using this)
    rw [readerRun_congr file idx rest.join.length _ _ hex]
    rw [hrest]
    simp [List.drop_zero, List.flatten_cons]

theorem mkIndex_length : ∀ (closed : List (List (List Nat × List Nat))) (o : Nat),
    (mkIndex o closed).length = closed.length
  | [], _ => rfl
  | rs :: rest, o => by
    simp [mkIndex, mkIndex_length rest]

theorem mkIndex_getD : ∀ (closed : List (List (List Nat × List Nat))) (o t : Nat)
    (ht : t < closed.length),
    (mkIndex o closed).getD t ⟨[], 0, 0⟩ =
      { firstKey := ((closed.get ⟨t, ht⟩).headD ([], [])).1,
        off := o + ((closed.take t).map (fun rs => (padB (blockRaw rs)).length)).sum,
        len := (padB (blockRaw (closed.get ⟨t, ht⟩))).length }
  | rs :: rest, o, 0, _ => by
    simp [mkIndex]
  | rs :: rest, o, t + 1, ht => by
    simp only [mkIndex, List.getD_cons_succ, List.get_cons_succ, List.take_succ_cons,
      List.map_cons, List.sum_cons]
    rw [mkIndex_getD rest (o + (padB (blockRaw rs)).length) t (by simpa using ht)]
    simp only [IndexEntry.mk.injEq, true_and, and_true]
    omega

/-- The absolute-offset rebasing `readEntryHead` applies to the decoded
index. -/
theorem mkIndex_map_shift : ∀ (closed : List (List (List Nat × List Nat))) (o s : Nat),
    (mkIndex o closed).map
        (fun ent => { firstKey := ent.firstKey, off := s + ent.off, len := ent.len : IndexEntry })
      = mkIndex (s + o) closed
  | [], _, _ => rfl
  | rs :: rest, o, s => by
    simp only [mkIndex, List.map_cons, mkIndex_map_shift rest, List.cons.injEq, true_and]
    rw [Nat.add_assoc]

/-- The per-entry index encoding of `flushWAL`. -/
def encIdxE (e : IndexEntry) : List Nat :=
  (encLE 2 e.firstKey.length ++ encLE 8 e.off ++ encLE 4 e.len) ++ e.firstKey

theorem encIdxE_length (e : IndexEntry) : (encIdxE e).length = 14 + e.firstKey.length := by
  simp [encIdxE]
  omega

theorem readAt_shift (pre buf : List Nat) (k n : Nat) :
    readAt (pre ++ buf) (pre.length + k) n = readAt buf k n := by
  rw [readAt_append_right pre buf _ _ (by omega)]
  congr 1
  omega

theorem encIdxE_slice_klen (e : IndexEntry) (rest : List Nat) :
    readAt (encIdxE e ++ rest) 0 2 = encLE 2 e.firstKey.length := by
  unfold encIdxE
  rw [List.append_assoc, List.append_assoc, List.append_assoc]
  exact readAt_take _ _ _ (by simp)

theorem encIdxE_slice_off (e : IndexEntry) (rest : List Nat) :
    readAt (encIdxE e ++ rest) 2 8 = encLE 8 e.off := by
  unfold encIdxE
  rw [List.append_assoc, List.append_assoc, List.append_assoc]
  rw [readAt_append_right (encLE 2 e.firstKey.length) _ 2 8 (by simp)]
  simp only [encLE_length]
  norm_num
  exact readAt_take _ _ _ (by simp)

theorem encIdxE_slice_len (e : IndexEntry) (rest : List Nat) :
    readAt (encIdxE e ++ rest) 10 4 = encLE 4 e.len := by
  unfold encIdxE
  rw [List.append_assoc, List.append_assoc, List.append_assoc]
  rw [readAt_append_right (encLE 2 e.firstKey.length) _ 10 4 (by simp)]
  simp only [encLE_length]
  norm_num
  rw [readAt_append_right (encLE 8 e.off) _ 8 4 (by simp)]
  simp only [encLE_length]
  norm_num
  exact readAt_take _ _ _ (by simp)

theorem encIdxE_slice_fk (e : IndexEntry) (rest : List Nat) :
    readAt (encIdxE e ++ rest) 14 e.firstKey.length = e.firstKey := by
  unfold encIdxE
  rw [List.append_assoc, List.append_assoc, List.append_assoc]
  rw [readAt_append_right (encLE 2 e.firstKey.length) _ 14 e.firstKey.length (by simp)]
  simp only [encLE_length]
  norm_num
  rw [readAt_append_right (encLE 8 e.off) _ 12 e.firstKey.length (by simp)]
  simp only [encLE_length]
  norm_num
  rw [readAt_append_right (encLE 4 e.len) _ 4 e.firstKey.length (by simp)]
  simp only [encLE_length]
  norm_num
  exact readAt_take _ _ _ rfl

theorem decodeIndex_encode : ∀ (es : List IndexEntry) (pre : List Nat),
    (∀ e ∈ es, e.firstKey.length < 256 ^ 2 ∧ e.off < 256 ^ 8 ∧ e.len < 256 ^ 4) →
    decodeIndex (pre ++ (es.map encIdxE).join) pre.length = es
  | [], pre, _ => by
    rw [decodeIndex]
    rw [dif_neg (by simp)]
  | e :: es, pre, hb => by
    obtain ⟨hfk, hoff, hlen⟩ := hb e (by simp)
    have hjoin : ((e :: es).map encIdxE).join = encIdxE e ++ (es.map encIdxE).join := by
      simp
    have hbuflen : (pre ++ ((e :: es).map encIdxE).join).length
        = pre.length + 14 + e.firstKey.length + ((es.map encIdxE).join).length := by
      rw [hjoin]
      simp [encIdxE_length]
      omega
    have hk : readAt (pre ++ ((e :: es).map encIdxE).join) pre.length 2
        = encLE 2 e.firstKey.length := by
      rw [hjoin]
      have := readAt_shift pre (encIdxE e ++ (es.map encIdxE).join) 0 2
      rw [Nat.add_zero] at this
      rw [this]
      exact encIdxE_slice_klen e _
    have ho : readAt (pre ++ ((e :: es).map encIdxE).join) (pre.length + 2) 8
        = encLE 8 e.off := by
      rw [hjoin, readAt_shift]
      exact encIdxE_slice_off e _
    have hl : readAt (pre ++ ((e :: es).map encIdxE).join) (pre.length + 10) 4
        = encLE 4 e.len := by
      rw [hjoin, readAt_shift]
      exact encIdxE_slice_len e _
    have hf : readAt (pre ++ ((e :: es).map encIdxE).join) (pre.length + 14) e.firstKey.length
        = e.firstKey := by
      rw [hjoin, readAt_shift]
      exact encIdxE_slice_fk e _
    rw [decodeIndex]
    rw [dif_pos (by rw [hbuflen]; omega)]
    simp only [hk, decLE_encLE_of_lt hfk, ho, decLE_encLE_of_lt hoff, hl,
      decLE_encLE_of_lt hlen, hf]
    rw [if_neg (by rw [hbuflen]; omega)]
    have hre : pre ++ ((e :: es).map encIdxE).join
        = (pre ++ encIdxE e) ++ (es.map encIdxE).join := by
      rw [hjoin, List.append_assoc]
    have hoff2 : pre.length + 14 + e.firstKey.length = (pre ++ encIdxE e).length := by
      simp [encIdxE_length]
      omega
    rw [hre, hoff2, decodeIndex_encode es (pre ++ encIdxE e) (fun x hx => hb x (by simp [hx]))]

theorem readAt_skip (a rest : List Nat) (la k n : Nat) (ha : a.length = la) :
    readAt (a ++ rest) (la + k) n = readAt rest k n := by
  subst ha
  exact readAt_shift a rest k n

theorem decodeTableMeta_encode (m : TableMeta) (pad : Nat) (hext : m.extents = [])
    (hid : m.id.length < 256 ^ 2) (hlev : m.level < 256 ^ 2)
    (hsm : m.seqMin < 256 ^ 8) (hsx : m.seqMax < 256 ^ 8) (hsz : m.sizeBytes < 256 ^ 8)
    (hbs : m.blockSize < 256 ^ 4) (hio : m.indexOff < 256 ^ 8) (hil : m.indexLen < 256 ^ 4)
    (hec : m.entryCount < 256 ^ 4) (hmin : m.minKey.length = 16) (hmax : m.maxKey.length = 16)
    (E : List Nat) (hE : encodeTableMeta m = .ok E) :
    decodeTableMeta (E ++ List.replicate pad 0) = .ok m := by
  rw [encodeTableMeta, if_neg (by simp [hmin, hmax])] at hE
  simp only [Except.ok.injEq] at hE
  obtain ⟨id, level, minKey, maxKey, seqMin, seqMax, ext, sizeBytes, blockSize, indexOff,
    indexLen, entryCount⟩ := m
  simp only at hE hid hlev hsm hsx hsz hbs hio hil hec hmin hmax
  simp only at hext
  subst hext
  simp only [List.map_nil, List.length_nil, List.join, List.flatten_nil, List.append_nil] at hE
  subst hE
  simp only [List.append_assoc]
  have q1 : ∀ k n : Nat, readAt (encLE 2 id.length ++ (encLE 2 level ++ (encLE 8 seqMin ++ (encLE 8 seqMax ++ (encLE 8 sizeBytes ++ (encLE 4 blockSize ++ (encLE 8 indexOff ++ (encLE 4 indexLen ++ (encLE 4 entryCount ++ (minKey ++ (maxKey ++ (encLE 4 0 ++ (id ++ (List.replicate pad 0)))))))))))))) (2 + k) n = readAt (encLE 2 level ++ (encLE 8 seqMin ++ (encLE 8 seqMax ++ (encLE 8 sizeBytes ++ (encLE 4 blockSize ++ (encLE 8 indexOff ++ (encLE 4 indexLen ++ (encLE 4 entryCount ++ (minKey ++ (maxKey ++ (encLE 4 0 ++ (id ++ (List.replicate pad 0))))))))))))) k n := by
    intro k n
    exact readAt_skip (encLE 2 id.length) _ 2 k n (by simp)
  have q2 : ∀ k n : Nat, readAt (encLE 2 id.length ++ (encLE 2 level ++ (encLE 8 seqMin ++ (encLE 8 seqMax ++ (encLE 8 sizeBytes ++ (encLE 4 blockSize ++ (encLE 8 indexOff ++ (encLE 4 indexLen ++ (encLE 4 entryCount ++ (minKey ++ (maxKey ++ (encLE 4 0 ++ (id ++ (List.replicate pad 0)))))))))))))) (4 + k) n = readAt (encLE 8 seqMin ++ (encLE 8 seqMax ++ (encLE 8 sizeBytes ++ (encLE 4 blockSize ++ (encLE 8 indexOff ++ (encLE 4 indexLen ++ (encLE 4 entryCount ++ (minKey ++ (maxKey ++ (encLE 4 0 ++ (id ++ (List.replicate pad 0)))))))))))) k n := by
    intro k n
    rw [show (4 : Nat) + k = 2 + (2 + k) from by omega]
    rw [q1 (2 + k) n]
    exact readAt_skip (encLE 2 level) _ 2 k n (by simp)
  have q3 : ∀ k n : Nat, readAt (encLE 2 id.length ++ (encLE 2 level ++ (encLE 8 seqMin ++ (encLE 8 seqMax ++ (encLE 8 sizeBytes ++ (encLE 4 blockSize ++ (encLE 8 indexOff ++ (encLE 4 indexLen ++ (encLE 4 entryCount ++ (minKey ++ (maxKey ++ (encLE 4 0 ++ (id ++ (List.replicate pad 0)))))))))))))) (12 + k) n = readAt (encLE 8 seqMax ++ (encLE 8 sizeBytes ++ (encLE 4 blockSize ++ (encLE 8 indexOff ++ (encLE 4 indexLen ++ (encLE 4 entryCount ++ (minKey ++ (maxKey ++ (encLE 4 0 ++ (id ++ (List.replicate pad 0))))))))))) k n := by
    intro k n
    rw [show (12 : Nat) + k = 4 + (8 + k) from by omega]
    rw [q2 (8 + k) n]
    exact readAt_skip (encLE 8 seqMin) _ 8 k n (by simp)
  have q4 : ∀ k n : Nat, readAt (encLE 2 id.length ++ (encLE 2 level ++ (encLE 8 seqMin ++ (encLE 8 seqMax ++ (encLE 8 sizeBytes ++ (encLE 4 blockSize ++ (encLE 8 indexOff ++ (encLE 4 indexLen ++ (encLE 4 entryCount ++ (minKey ++ (maxKey ++ (encLE 4 0 ++ (id ++ (List.replicate pad 0)))))))))))))) (20 + k) n = readAt (encLE 8 sizeBytes ++ (encLE 4 blockSize ++ (encLE 8 indexOff ++ (encLE 4 indexLen ++ (encLE 4 entryCount ++ (minKey ++ (maxKey ++ (encLE 4 0 ++ (id ++ (List.replicate pad 0)))))))))) k n := by
    intro k n
    rw [show (20 : Nat) + k = 12 + (8 + k) from by omega]
    rw [q3 (8 + k) n]
    exact readAt_skip (encLE 8 seqMax) _ 8 k n (by simp)
  have q5 : ∀ k n : Nat, readAt (encLE 2 id.length ++ (encLE 2 level ++ (encLE 8 seqMin ++ (encLE 8 seqMax ++ (encLE 8 sizeBytes ++ (encLE 4 blockSize ++ (encLE 8 indexOff ++ (encLE 4 indexLen ++ (encLE 4 entryCount ++ (minKey ++ (maxKey ++ (encLE 4 0 ++ (id ++ (List.replicate pad 0)))))))))))))) (28 + k) n = readAt (encLE 4 blockSize ++ (encLE 8 indexOff ++ (encLE 4 indexLen ++ (encLE 4 entryCount ++ (minKey ++ (maxKey ++ (encLE 4 0 ++ (id ++ (List.replicate pad 0))))))))) k n := by
    intro k n
    rw [show (28 : Nat) + k = 20 + (8 + k) from by omega]
    rw [q4 (8 + k) n]
    exact readAt_skip (encLE 8 sizeBytes) _ 8 k n (by simp)
  have q6 : ∀ k n : Nat, readAt (encLE 2 id.length ++ (encLE 2 level ++ (encLE 8 seqMin ++ (encLE 8 seqMax ++ (encLE 8 sizeBytes ++ (encLE 4 blockSize ++ (encLE 8 indexOff ++ (encLE 4 indexLen ++ (encLE 4 entryCount ++ (minKey ++ (maxKey ++ (encLE 4 0 ++ (id ++ (List.replicate pad 0)))))))))))))) (32 + k) n = readAt (encLE 8 indexOff ++ (encLE 4 indexLen ++ (encLE 4 entryCount ++ (minKey ++ (maxKey ++ (encLE 4 0 ++ (id ++ (List.replicate pad 0)))))))) k n := by
    intro k n
    rw [show (32 : Nat) + k = 28 + (4 + k) from by omega]
    rw [q5 (4 + k) n]
    exact readAt_skip (encLE 4 blockSize) _ 4 k n (by simp)
  have q7 : ∀ k n : Nat, readAt (encLE 2 id.length ++ (encLE 2 level ++ (encLE 8 seqMin ++ (encLE 8 seqMax ++ (encLE 8 sizeBytes ++ (encLE 4 blockSize ++ (encLE 8 indexOff ++ (encLE 4 indexLen ++ (encLE 4 entryCount ++ (minKey ++ (maxKey ++ (encLE 4 0 ++ (id ++ (List.replicate pad 0)))))))))))))) (40 + k) n = readAt (encLE 4 indexLen ++ (encLE 4 entryCount ++ (minKey ++ (maxKey ++ (encLE 4 0 ++ (id ++ (List.replicate pad 0))))))) k n := by
    intro k n
    rw [show (40 : Nat) + k = 32 + (8 + k) from by omega]
    rw [q6 (8 + k) n]
    exact readAt_skip (encLE 8 indexOff) _ 8 k n (by simp)
  have q8 : ∀ k n : Nat, readAt (encLE 2 id.length ++ (encLE 2 level ++ (encLE 8 seqMin ++ (encLE 8 seqMax ++ (encLE 8 sizeBytes ++ (encLE 4 blockSize ++ (encLE 8 indexOff ++ (encLE 4 indexLen ++ (encLE 4 entryCount ++ (minKey ++ (maxKey ++ (encLE 4 0 ++ (id ++ (List.replicate pad 0)))))))))))))) (44 + k) n = readAt (encLE 4 entryCount ++ (minKey ++ (maxKey ++ (encLE 4 0 ++ (id ++ (List.replicate pad 0)))))) k n := by
    intro k n
    rw [show (44 : Nat) + k = 40 + (4 + k) from by omega]
    rw [q7 (4 + k) n]
    exact readAt_skip (encLE 4 indexLen) _ 4 k n (by simp)
  have q9 : ∀ k n : Nat, readAt (encLE 2 id.length ++ (encLE 2 level ++ (encLE 8 seqMin ++ (encLE 8 seqMax ++ (encLE 8 sizeBytes ++ (encLE 4 blockSize ++ (encLE 8 indexOff ++ (encLE 4 indexLen ++ (encLE 4 entryCount ++ (minKey ++ (maxKey ++ (encLE 4 0 ++ (id ++ (List.replicate pad 0)))))))))))))) (48 + k) n = readAt (minKey ++ (maxKey ++ (encLE 4 0 ++ (id ++ (List.replicate pad 0))))) k n := by
    intro k n
    rw [show (48 : Nat) + k = 44 + (4 + k) from by omega]
    rw [q8 (4 + k) n]
    exact readAt_skip (encLE 4 entryCount) _ 4 k n (by simp)
  have q10 : ∀ k n : Nat, readAt (encLE 2 id.length ++ (encLE 2 level ++ (encLE 8 seqMin ++ (encLE 8 seqMax ++ (encLE 8 sizeBytes ++ (encLE 4 blockSize ++ (encLE 8 indexOff ++ (encLE 4 indexLen ++ (encLE 4 entryCount ++ (minKey ++ (maxKey ++ (encLE 4 0 ++ (id ++ (List.replicate pad 0)))))))))))))) (64 + k) n = readAt (maxKey ++ (encLE 4 0 ++ (id ++ (List.replicate pad 0)))) k n := by
    intro k n
    rw [show (64 : Nat) + k = 48 + (16 + k) from by omega]
    rw [q9 (16 + k) n]
    exact readAt_skip (minKey) _ 16 k n (hmin)
  have q11 : ∀ k n : Nat, readAt (encLE 2 id.length ++ (encLE 2 level ++ (encLE 8 seqMin ++ (encLE 8 seqMax ++ (encLE 8 sizeBytes ++ (encLE 4 blockSize ++ (encLE 8 indexOff ++ (encLE 4 indexLen ++ (encLE 4 entryCount ++ (minKey ++ (maxKey ++ (encLE 4 0 ++ (id ++ (List.replicate pad 0)))))))))))))) (80 + k) n = readAt (encLE 4 0 ++ (id ++ (List.replicate pad 0))) k n := by
    intro k n
    rw [show (80 : Nat) + k = 64 + (16 + k) from by omega]
    rw [q10 (16 + k) n]
    exact readAt_skip (maxKey) _ 16 k n (hmax)
  have q12 : ∀ k n : Nat, readAt (encLE 2 id.length ++ (encLE 2 level ++ (encLE 8 seqMin ++ (encLE 8 seqMax ++ (encLE 8 sizeBytes ++ (encLE 4 blockSize ++ (encLE 8 indexOff ++ (encLE 4 indexLen ++ (encLE 4 entryCount ++ (minKey ++ (maxKey ++ (encLE 4 0 ++ (id ++ (List.replicate pad 0)))))))))))))) (84 + k) n = readAt (id ++ (List.replicate pad 0)) k n := by
    intro k n
    rw [show (84 : Nat) + k = 80 + (4 + k) from by omega]
    rw [q11 (4 + k) n]
    exact readAt_skip (encLE 4 0) _ 4 k n (by simp)
  have r1 : readAt (encLE 2 id.length ++ (encLE 2 level ++ (encLE 8 seqMin ++ (encLE 8 seqMax ++ (encLE 8 sizeBytes ++ (encLE 4 blockSize ++ (encLE 8 indexOff ++ (encLE 4 indexLen ++ (encLE 4 entryCount ++ (minKey ++ (maxKey ++ (encLE 4 0 ++ (id ++ (List.replicate pad 0)))))))))))))) 0 2 = encLE 2 id.length := by
    exact readAt_take _ _ _ (by simp)
  have r2 : readAt (encLE 2 id.length ++ (encLE 2 level ++ (encLE 8 seqMin ++ (encLE 8 seqMax ++ (encLE 8 sizeBytes ++ (encLE 4 blockSize ++ (encLE 8 indexOff ++ (encLE 4 indexLen ++ (encLE 4 entryCount ++ (minKey ++ (maxKey ++ (encLE 4 0 ++ (id ++ (List.replicate pad 0)))))))))))))) 2 2 = encLE 2 level := by
    have h := q1 0 2
    rw [Nat.add_zero] at h
    rw [h]
    exact readAt_take _ _ _ (by simp)
  have r3 : readAt (encLE 2 id.length ++ (encLE 2 level ++ (encLE 8 seqMin ++ (encLE 8 seqMax ++ (encLE 8 sizeBytes ++ (encLE 4 blockSize ++ (encLE 8 indexOff ++ (encLE 4 indexLen ++ (encLE 4 entryCount ++ (minKey ++ (maxKey ++ (encLE 4 0 ++ (id ++ (List.replicate pad 0)))))))))))))) 4 8 = encLE 8 seqMin := by
    have h := q2 0 8
    rw [Nat.add_zero] at h
    rw [h]
    exact readAt_take _ _ _ (by simp)
  have r4 : readAt (encLE 2 id.length ++ (encLE 2 level ++ (encLE 8 seqMin ++ (encLE 8 seqMax ++ (encLE 8 sizeBytes ++ (encLE 4 blockSize ++ (encLE 8 indexOff ++ (encLE 4 indexLen ++ (encLE 4 entryCount ++ (minKey ++ (maxKey ++ (encLE 4 0 ++ (id ++ (List.replicate pad 0)))))))))))))) 12 8 = encLE 8 seqMax := by
    have h := q3 0 8
    rw [Nat.add_zero] at h
    rw [h]
    exact readAt_take _ _ _ (by simp)
  have r5 : readAt (encLE 2 id.length ++ (encLE 2 level ++ (encLE 8 seqMin ++ (encLE 8 seqMax ++ (encLE 8 sizeBytes ++ (encLE 4 blockSize ++ (encLE 8 indexOff ++ (encLE 4 indexLen ++ (encLE 4 entryCount ++ (minKey ++ (maxKey ++ (encLE 4 0 ++ (id ++ (List.replicate pad 0)))))))))))))) 20 8 = encLE 8 sizeBytes := by
    have h := q4 0 8
    rw [Nat.add_zero] at h
    rw [h]
    exact readAt_take _ _ _ (by simp)
  have r6 : readAt (encLE 2 id.length ++ (encLE 2 level ++ (encLE 8 seqMin ++ (encLE 8 seqMax ++ (encLE 8 sizeBytes ++ (encLE 4 blockSize ++ (encLE 8 indexOff ++ (encLE 4 indexLen ++ (encLE 4 entryCount ++ (minKey ++ (maxKey ++ (encLE 4 0 ++ (id ++ (List.replicate pad 0)))))))))))))) 28 4 = encLE 4 blockSize := by
    have h := q5 0 4
    rw [Nat.add_zero] at h
    rw [h]
    exact readAt_take _ _ _ (by simp)
  have r7 : readAt (encLE 2 id.length ++ (encLE 2 level ++ (encLE 8 seqMin ++ (encLE 8 seqMax ++ (encLE 8 sizeBytes ++ (encLE 4 blockSize ++ (encLE 8 indexOff ++ (encLE 4 indexLen ++ (encLE 4 entryCount ++ (minKey ++ (maxKey ++ (encLE 4 0 ++ (id ++ (List.replicate pad 0)))))))))))))) 32 8 = encLE 8 indexOff := by
    have h := q6 0 8
    rw [Nat.add_zero] at h
    rw [h]
    exact readAt_take _ _ _ (by simp)
  have r8 : readAt (encLE 2 id.length ++ (encLE 2 level ++ (encLE 8 seqMin ++ (encLE 8 seqMax ++ (encLE 8 sizeBytes ++ (encLE 4 blockSize ++ (encLE 8 indexOff ++ (encLE 4 indexLen ++ (encLE 4 entryCount ++ (minKey ++ (maxKey ++ (encLE 4 0 ++ (id ++ (List.replicate pad 0)))))))))))))) 40 4 = encLE 4 indexLen := by
    have h := q7 0 4
    rw [Nat.add_zero] at h
    rw [h]
    exact readAt_take _ _ _ (by simp)
  have r9 : readAt (encLE 2 id.length ++ (encLE 2 level ++ (encLE 8 seqMin ++ (encLE 8 seqMax ++ (encLE 8 sizeBytes ++ (encLE 4 blockSize ++ (encLE 8 indexOff ++ (encLE 4 indexLen ++ (encLE 4 entryCount ++ (minKey ++ (maxKey ++ (encLE 4 0 ++ (id ++ (List.replicate pad 0)))))))))))))) 44 4 = encLE 4 entryCount := by
    have h := q8 0 4
    rw [Nat.add_zero] at h
    rw [h]
    exact readAt_take _ _ _ (by simp)
  have r10 : readAt (encLE 2 id.length ++ (encLE 2 level ++ (encLE 8 seqMin ++ (encLE 8 seqMax ++ (encLE 8 sizeBytes ++ (encLE 4 blockSize ++ (encLE 8 indexOff ++ (encLE 4 indexLen ++ (encLE 4 entryCount ++ (minKey ++ (maxKey ++ (encLE 4 0 ++ (id ++ (List.replicate pad 0)))))))))))))) 48 16 = minKey := by
    have h := q9 0 16
    rw [Nat.add_zero] at h
    rw [h]
    exact readAt_take _ _ _ (hmin)
  have r11 : readAt (encLE 2 id.length ++ (encLE 2 level ++ (encLE 8 seqMin ++ (encLE 8 seqMax ++ (encLE 8 sizeBytes ++ (encLE 4 blockSize ++ (encLE 8 indexOff ++ (encLE 4 indexLen ++ (encLE 4 entryCount ++ (minKey ++ (maxKey ++ (encLE 4 0 ++ (id ++ (List.replicate pad 0)))))))))))))) 64 16 = maxKey := by
    have h := q10 0 16
    rw [Nat.add_zero] at h
    rw [h]
    exact readAt_take _ _ _ (hmax)
  have r12 : readAt (encLE 2 id.length ++ (encLE 2 level ++ (encLE 8 seqMin ++ (encLE 8 seqMax ++ (encLE 8 sizeBytes ++ (encLE 4 blockSize ++ (encLE 8 indexOff ++ (encLE 4 indexLen ++ (encLE 4 entryCount ++ (minKey ++ (maxKey ++ (encLE 4 0 ++ (id ++ (List.replicate pad 0)))))))))))))) 80 4 = encLE 4 0 := by
    have h := q11 0 4
    rw [Nat.add_zero] at h
    rw [h]
    exact readAt_take _ _ _ (by simp)
  have r13 : readAt (encLE 2 id.length ++ (encLE 2 level ++ (encLE 8 seqMin ++ (encLE 8 seqMax ++ (encLE 8 sizeBytes ++ (encLE 4 blockSize ++ (encLE 8 indexOff ++ (encLE 4 indexLen ++ (encLE 4 entryCount ++ (minKey ++ (maxKey ++ (encLE 4 0 ++ (id ++ (List.replicate pad 0)))))))))))))) 84 id.length = id := by
    have h := q12 0 id.length
    rw [Nat.add_zero] at h
    rw [h]
    exact readAt_take _ _ _ (rfl)
  have hbuflen : (encLE 2 id.length ++ (encLE 2 level ++ (encLE 8 seqMin ++ (encLE 8 seqMax ++ (encLE 8 sizeBytes ++ (encLE 4 blockSize ++ (encLE 8 indexOff ++ (encLE 4 indexLen ++ (encLE 4 entryCount ++ (minKey ++ (maxKey ++ (encLE 4 0 ++ (id ++ (List.replicate pad 0)))))))))))))).length = 84 + id.length + pad := by
    simp [hmin, hmax]
    omega
  unfold decodeTableMeta
  rw [r1, decLE_encLE_of_lt hid]
  rw [if_neg (by rw [hbuflen]; omega)]
  rw [r12, r13]
  rw [show decLE (encLE 4 0) = 0 from by rw [decLE_encLE]; simp]
  simp only [decodeExtents]
  rw [r2, decLE_encLE_of_lt hlev, r3, decLE_encLE_of_lt hsm, r4, decLE_encLE_of_lt hsx,
    r5, decLE_encLE_of_lt hsz, r6, decLE_encLE_of_lt hbs, r7, decLE_encLE_of_lt hio,
    r8, decLE_encLE_of_lt hil, r9, decLE_encLE_of_lt hec, r10, r11]

theorem readAt_writeAt (file data : List Nat) (off k n : Nat)
    (h1 : k + n ≤ data.length) (h2 : off ≤ file.length) :
    readAt (writeAt file off data) (off + k) n = readAt data k n := by
  unfold writeAt
  rw [Nat.sub_eq_zero_of_le h2]
  simp only [List.replicate_zero, List.append_nil]
  rw [List.append_assoc]
  rw [readAt_append_right (file.take off) _ _ _ (by rw [List.length_take]; omega)]
  have h3 : off + k - (file.take off).length = k := by
    rw [List.length_take]
    omega
  rw [h3]
  exact readAt_append_left data _ k n h1

theorem readAt_at (a rest : List Nat) (o n : Nat) (ha : a.length = o) :
    readAt (a ++ rest) o n = readAt rest 0 n := by
  have h := readAt_skip a rest o 0 n ha
  rwa [Nat.add_zero] at h

theorem readAt_writeAt0 (file data : List Nat) (off n : Nat)
    (h1 : n ≤ data.length) (h2 : off ≤ file.length) :
    readAt (writeAt file off data) off n = readAt data 0 n := by
  have h := readAt_writeAt file data off 0 n (by omega) h2
  rwa [Nat.add_zero] at h

theorem mem_mkIndex : ∀ (closed : List (List (List Nat × List Nat))) (o : Nat)
    (e : IndexEntry), e ∈ mkIndex o closed →
    ∃ t, ∃ ht : t < closed.length,
      e.firstKey = ((closed.get ⟨t, ht⟩).headD ([], [])).1 ∧
      e.len = (padB (blockRaw (closed.get ⟨t, ht⟩))).length ∧
      o ≤ e.off ∧
      e.off + e.len ≤ o + (closed.map (fun rs => (padB (blockRaw rs)).length)).sum
  | [], o, e, h => by simp [mkIndex] at h
  | rs :: rest, o, e, h => by
    simp only [mkIndex, List.mem_cons] at h
    rcases h with rfl | h
    · refine ⟨0, by simp, rfl, rfl, le_refl _, ?_⟩
      simp
    · obtain ⟨t, ht, h1, h2, h3, h4⟩ := mem_mkIndex rest _ e h
      refine ⟨t + 1, by simp; omega, by simpa using h1, by simpa using h2, by omega, ?_⟩
      simp only [List.map_cons, List.sum_cons, List.take_succ_cons, List.get_cons_succ]
      omega

/-! ## Claim theorems -/

/-- Claim C4: `appendMany` fails with wal-full exactly when
`free = J - used` is smaller than the batch size plus (when the batch
would cross `jEnd`) the aligned PAD size, and on that failure it returns
before mutating any of head, tail, lastLsn and the LSN map and before
writing any record byte. -/
theorem appendMany_walFull_iff_and_unchanged (st : WalState) (items : List Operation) :
    ((appendMany st items).1 = .error .walFull ↔
      ((st.jEnd - st.jStart : Nat) : Int) - getUsed st <
        ((batchBytesOf st items +
          if st.tail + batchBytesOf st items > st.jEnd then walAlign minHdr else 0 : Nat) : Int))
    ∧ ((appendMany st items).1 = .error .walFull →
        (appendMany st items).2.1 = st ∧ (appendMany st items).2.2 = []) := by
  unfold appendMany
  rcases h : appendLoop st.jStart st.jEnd (assignRecs st.lsn items)
      (if decide (st.tail + batchBytesOf st items > st.jEnd) then st.jStart else st.tail)
      st.lsnToEnd with ⟨fin, ws, m'⟩
  by_cases hw : st.tail + batchBytesOf st items > st.jEnd
  · simp only [h, decide_eq_true_eq, if_pos hw]
    split
    next hfree =>
      exact ⟨⟨fun _ => hfree, fun _ => rfl⟩, fun _ => ⟨rfl, rfl⟩⟩
    next hfree =>
      exact ⟨⟨fun hc => by simp at hc, fun hc => absurd hc hfree⟩,
        fun hc => by simp at hc⟩
  · simp only [h, decide_eq_true_eq, if_neg hw]
    split
    next hfree =>
      exact ⟨⟨fun _ => hfree, fun _ => rfl⟩, fun _ => ⟨rfl, rfl⟩⟩
    next hfree =>
      exact ⟨⟨fun hc => by simp at hc, fun hc => absurd hc hfree⟩,
        fun hc => by simp at hc⟩

/-- Witness for C4 at a concrete input: a fresh 32-byte journal cannot
take a 24-byte-record batch of two operations, and the failed call leaves
the state and the file untouched. -/
theorem appendMany_walFull_witness :
    (appendMany { jStart := 0, jEnd := 32, head := 0, tail := 0, lsn := 0, lsnToEnd := [] }
        twoSets).2.1 =
      { jStart := 0, jEnd := 32, head := 0, tail := 0, lsn := 0, lsnToEnd := [] } ∧
    (appendMany { jStart := 0, jEnd := 32, head := 0, tail := 0, lsn := 0, lsnToEnd := [] }
        twoSets).2.2 = [] :=
  (appendMany_walFull_iff_and_unchanged _ twoSets).2
    ((appendMany_walFull_iff_and_unchanged _ twoSets).1.mpr (by decide))

/-- Claim C2 (code bug): in the bundled `SuperblockManager.checkpoint` the
new superblock takes `update.epoch ?? this.sb.epoch`, and no caller in the
repository passes an `epoch`, so a successful checkpoint on a formatted
manager writes the OLD epoch — not the previous epoch plus 1 — to the
inactive slot.  Here: a manager formatted at epoch 7 checkpoints and the
superblock written to (and decoded back from) the inactive slot B still
carries epoch 7. -/
theorem sbCheckpoint_keeps_epoch :
    ((sbCheckpoint (sbFormatInitial J_START 7)
        { epoch := none, checkpointLSN := 5, jHead := J_START, jTail := J_START + 24 }).toOption.bind
      (fun s => (decodeSB s.diskB).map Superblock.epoch)) = some 7 ∧ (7 : Nat) ≠ 7 + 1 := by
  refine ⟨?_, by decide⟩
  have h : (sbCheckpoint (sbFormatInitial J_START 7)
      { epoch := none, checkpointLSN := 5, jHead := J_START, jTail := J_START + 24 }) =
      .ok { active := .B,
            sb := some { version := 1, blockSize := BLOCK, epoch := 7, checkpointLSN := 5,
                         jHead := J_START, jTail := J_START + 24 },
            diskA := encodeSB { version := 1, blockSize := BLOCK, epoch := 7, checkpointLSN := 0,
                                jHead := J_START, jTail := J_START },
            diskB := encodeSB { version := 1, blockSize := BLOCK, epoch := 7, checkpointLSN := 5,
                                jHead := J_START, jTail := J_START + 24 } } := rfl
  rw [h]
  simp only [Except.toOption, Option.some_bind]
  rw [decodeSB_encodeSB _ (by decide) (by decide) rfl (by decide) (by decide) (by decide) (by decide)]
  rfl

/-- Claim C3 (code bug): `WAL_Manager.checkpoint(lsn, ...)` prunes the
LSN map with `k <= offset`, comparing each LSN against the remembered BYTE
OFFSET instead of against `lsn`.  From a fresh WAL, append two records
(LSNs 1 and 2, post-record offsets 8216 and 8240) and checkpoint LSN 1:
the code deletes BOTH map entries (1 ≤ 8216 and 2 ≤ 8216), where the claim
requires exactly the entries with key ≤ 1 to go, i.e. entry 2 to stay.
The head move and the superblock update arguments are as the claim says. -/
theorem walCheckpoint_drops_by_offset :
    (walCheckpoint (appendMany freshWal twoSets).2.1 1).toOption.map
        (fun r => (r.1.head, r.1.lsnToEnd, r.2)) =
      some (8216, ([] : List (Nat × Nat)),
        { epoch := none, checkpointLSN := 1, jHead := 8216, jTail := 8240 }) ∧
    ([] : List (Nat × Nat)) ≠ [(2, 8240)] := by
  constructor
  · decide
  · decide

/-- Claim C5 (code bug): `appendMany` does remember the normalized
post-record offset (appending the 24-byte record to a fresh WAL stores
offset 8216 for LSN 1), but `initFrom` rebuilds the map as
`head + e.off` where `e.off` is the offset at which the scanned record
STARTS, so after recovery the map holds 8192 — the record's own offset —
instead of the post-record offset 8216, breaking the claimed invariant on
the `initFrom` path. -/
theorem initFrom_stores_record_start :
    mapGet ((appendMany freshWal
        [{ op := .set, key := [107], value := [104, 105] }]).2.1).lsnToEnd 1 = some 8216 ∧
    mapGet (initFrom journalFile J_START (J_START + J_LENGTH) J_START 8216 1).lsnToEnd 1 =
      some 8192 ∧
    (8192 : Nat) ≠ 8216 := by
  refine ⟨by decide, ?_, by decide⟩
  have hbuf : readAt journalFile J_START 8216 = encodeRecord 1 1 [107] [104, 105] := by
    unfold journalFile
    rw [readAt_append_right (List.replicate J_START 0) _ J_START 8216 (by simp)]
    rw [List.length_replicate, Nat.sub_self]
    exact readAt_all _ _ (by decide)
  have hscan : scanLoop (encodeRecord 1 1 [107] [104, 105]) 0 =
      [{ lsn := 1, op := 1, key := [107], value := [104, 105], off := 0 }] := by
    have h1 : decodeAt (encodeRecord 1 1 [107] [104, 105]) 0 =
        .entry 24 1 1 [107] [104, 105] := by decide
    rw [scanLoop, dif_pos (by decide)]
    split
    · simp_all
    · simp_all
    · rename_i next lsn op k v hd
      rw [h1] at hd
      simp only [DecodedRec.entry.injEq] at hd
      obtain ⟨e1, e2, e3, e4, e5⟩ := hd
      subst e1
      subst e2
      subst e3
      subst e4
      subst e5
      rw [scanLoop, dif_neg (by decide)]
  unfold initFrom walScan
  rw [hbuf, hscan]
  decide

/-- Claim C7: `requestTable` fails with needs-compaction exactly when
`fileSize - tableTail < size`; on success it admits the manifest entry
with `metaOff` the pre-call `tableTail` and `metaLen = size` and only then
advances `tableTail` to `alignUp(metaOff + size, BLOCK)`; the only other
failure is manifest-full (at CAP), which leaves no state change behind. -/
theorem requestTable_eq (st : TableState) (fileSize level size : Nat) (p q : List Nat) :
    requestTable st fileSize level size p q =
      if (size : Int) > (fileSize : Int) - st.tableTail then .error .needsCompaction
      else if st.entries.length ≥ CAP then .error .manifestFull
      else .ok ({ entries := st.entries ++ [⟨level, st.tableTail, size, p, q⟩],
                  tableTail := alignUp (st.tableTail + size) BLOCK },
                ⟨level, st.tableTail, size, p, q⟩) := by
  by_cases h1 : (size : Int) > (fileSize : Int) - st.tableTail
  · simp [requestTable, addEntry, h1]
  · by_cases h2 : st.entries.length ≥ CAP <;>
      simp [requestTable, addEntry, h1, h2]

theorem requestTable_spec (st : TableState) (fileSize level size : Nat)
    (p q : List Nat) :
    (requestTable st fileSize level size p q = .error .needsCompaction ↔
      (fileSize : Int) - st.tableTail < size)
    ∧ (∀ st' e, requestTable st fileSize level size p q = .ok (st', e) →
        e.metaOff = st.tableTail ∧ e.metaLen = size ∧ e.level = level ∧
        e.minPfx = p ∧ e.maxPfx = q ∧
        st'.entries = st.entries ++ [e] ∧
        st'.tableTail = alignUp (st.tableTail + size) BLOCK)
    ∧ (requestTable st fileSize level size p q = .error .manifestFull →
        CAP ≤ st.entries.length) := by
  rw [requestTable_eq]
  by_cases hc : (size : Int) > (fileSize : Int) - st.tableTail
  · rw [if_pos hc]
    refine ⟨⟨fun _ => by omega, fun _ => rfl⟩, ?_, ?_⟩
    · intro st' e h
      simp at h
    · intro h
      simp at h
  · rw [if_neg hc]
    by_cases hcap : st.entries.length ≥ CAP
    · rw [if_pos hcap]
      refine ⟨⟨fun h => by simp at h, fun h => by omega⟩, ?_, fun _ => hcap⟩
      intro st' e h
      simp at h
    · rw [if_neg hcap]
      refine ⟨⟨fun h => by simp at h, fun h => by omega⟩, ?_, ?_⟩
      · intro st' e h
        simp only [Except.ok.injEq, Prod.mk.injEq] at h
        obtain ⟨h1, h2⟩ := h
        subst h2
        simp [← h1]
      · intro h
        simp at h

/-- Witness for C7 at concrete inputs: with 60 bytes asked of a 50-byte
gap the call fails with needs-compaction; with room available the entry
is admitted at the old tail and the tail advances to the next block
boundary. -/
theorem requestTable_witness :
    requestTable { entries := [], tableTail := 100 } 50 0 60 [] [] =
      .error .needsCompaction ∧
    ({ entries := [], tableTail := 100 } : TableState).entries ++
        [{ level := 0, metaOff := 100, metaLen := 60, minPfx := [], maxPfx := [] }] =
      [{ level := 0, metaOff := 100, metaLen := 60, minPfx := [], maxPfx := [] }] :=
  ⟨(requestTable_spec _ 50 0 60 [] []).1.mpr (by decide),
   by
    have h := (requestTable_spec { entries := [], tableTail := 100 } 4096 0 60 [] []).2.1
      { entries := [{ level := 0, metaOff := 100, metaLen := 60, minPfx := [], maxPfx := [] }],
        tableTail := alignUp 160 BLOCK }
      { level := 0, metaOff := 100, metaLen := 60, minPfx := [], maxPfx := [] }
      (by rw [requestTable_eq]; rfl)
    exact h.2.2.2.2.2.1⟩

/-- Claim C6 (code bug): the loop consumes the `recoverFlush` marker on
the FIRST non-empty batch only.  With nine replayed operations enqueued by
recovery (recoverFlush = 9 > 0), the first batch of `MAX_INFLIGHT = 8`
skips the WAL append, but the ninth replayed operation arrives in a second
batch with `recoverFlush` already reset to -1 and IS appended to the WAL
again as LSN 10 — contradicting "no replayed operation is ever appended to
the WAL again". -/
theorem runFor_reappends_replayed_op :
    (runForQueue sk0 [] recovered9 (List.replicate 9 op24)).map
        (fun f => (f.walWrites.map (fun w => (w.1, w.2.length)), f.wal.lsn, f.recoverFlush)) =
      .ok ([(8408, 24)], 10, -1) := by
  have hch : chunked (List.replicate 9 op24) = [List.replicate 8 op24, [op24]] := by
    rw [chunked]
    rw [chunked]
    rw [chunked]
    norm_num [MAX_INFLIGHT]
  unfold runForQueue
  rw [hch]
  rfl

/-- Claim C1 (code bug): a batch whose records exactly fill the free
journal makes `tail` wrap to `jStart = head`, so `getUsed` collapses to 0:
the un-flushed records become invisible and the next append overwrites
them without any flush.  Engine run with journalBytes = 192 (a legal
`WAL_Manager` constructor option): eight accepted set records fill the
journal exactly — after that batch head = tail = 8192 and used = 0 with no
flush (second conjunct) — and the next batch's record is then written at
offset 8192, clobbering the first batch's first record, with `flushes`
still empty (first conjunct).  The superblock half of the claim does hold
(checkpointLSN 9 ≥ 8), but the WAL disjunction fails: the first batch's
records end up neither in the WAL region nor in any level-0 table. -/
theorem runFor_exact_fill_loses_batch :
    ((runForQueue sk0 [] engine192 nineOps1).map (fun f =>
        (f.walWrites.map (fun w => (w.1, w.2.length)), getUsed f.wal, f.flushes,
         f.sbm.sb.map Superblock.checkpointLSN)) =
      .ok ([(8192, 24), (8216, 24), (8240, 24), (8264, 24), (8288, 24), (8312, 24),
            (8336, 24), (8360, 24), (8192, 24)], 24, [], some 9))
    ∧ ((runBatches sk0 [] engine192 [List.replicate 8 op24]).map (fun f =>
        (getUsed f.wal, f.wal.head, f.wal.tail, f.flushes)) = .ok (0, J_START, J_START, [])) := by
  constructor
  · have hch : chunked nineOps1 = [List.replicate 8 op24, [op2b]] := by
      rw [chunked]
      rw [chunked]
      rw [chunked]
      norm_num [MAX_INFLIGHT, nineOps1]
    unfold runForQueue
    rw [hch]
    rfl
  · rfl

/-- Claim C9 (amended): under the additional per-record bound that every
record's encoded length `6 + klen + vlen` is at most `BLOCK - 2` — without
it the claim fails, see `flushWAL_oversized_record_block` — every data
block sealed by `flushWAL`'s builder is the padded encoding of a non-empty
group of whole records: the 2-byte count header holds exactly the number
of records in the block, the raw bytes (records plus header) fit in
`BLOCK`, and no record straddles a block boundary. -/
theorem flushWAL_blocks_wellformed (sk : List Nat → List Nat)
    (snap : List (List Nat × List Nat))
    (h : ∀ r ∈ snap, 6 + r.1.length + r.2.length ≤ BLOCK - 2) :
    ∀ bl ∈ (buildAll sk snap).blocks, goodBlock bl := by
  obtain ⟨closed, -, hbl, -, hgood, -, -, -, -, -⟩ := buildAll_inv sk snap h
  intro bl hmem
  rw [hbl] at hmem
  obtain ⟨rs, hrs, rfl⟩ := List.mem_map.mp hmem
  exact ⟨rs, (hgood rs hrs).1, (hgood rs hrs).2, rfl⟩

theorem flushWAL_blocks_wellformed_witness :
    (∀ r ∈ [(([107] : List Nat), ([104, 105] : List Nat))],
        6 + r.1.length + r.2.length ≤ BLOCK - 2) ∧
    ∀ bl ∈ (buildAll sk0 [([107], [104, 105])]).blocks, goodBlock bl :=
  ⟨by decide, flushWAL_blocks_wellformed sk0 [([107], [104, 105])] (by decide)⟩

/-- Claim C9 (counterexample): a snapshot holding one record whose encoded
length `6 + 1 + 4091 = 4098` exceeds `BLOCK - 2` refutes the claim as
stated: `pushRecord` sees `curSize + recLen > BLOCK`, but sealing the
still-empty open block is a no-op, and the oversized record is pushed
anyway, so the block that is then sealed carries `2 + 4098 = 4100 > BLOCK`
raw bytes and spans two `BLOCK` units after padding. -/
theorem flushWAL_oversized_record_block :
    ∃ bl ∈ (buildAll sk0 [([0], List.replicate 4091 0)]).blocks, ¬ goodBlock bl := by
  have hgen : ∀ v : List Nat, v.length = 4091 →
      (buildAll sk0 [([0], v)]).blocks = [padB (blockRaw [([0], v)])] := by
    intro v hv
    unfold buildAll sortRecs
    rw [List.mergeSort_singleton]
    simp only [List.foldl_cons, List.foldl_nil]
    simp only [pushRecord, initBuilder, flushBlock, List.length_cons, List.length_nil, hv]
    norm_num [BLOCK, padB, blockRaw, recEnc, recHdr, List.join, List.append_assoc]
  have hblocks := hgen (List.replicate 4091 0) (by rw [List.length_replicate])
  have hraw : (blockRaw [([0], List.replicate 4091 0)]).length = 4100 := by
    rw [length_blockRaw]
    simp only [List.map_cons, List.map_nil, List.sum_cons, List.sum_nil, recLen,
      List.length_cons, List.length_nil, List.length_replicate]
    norm_num
  have hlen : (padB (blockRaw [([0], List.replicate 4091 0)])).length = 8192 := by
    simp only [padB, List.length_append, List.length_replicate, hraw]
    norm_num [alignUp, BLOCK]
  refine ⟨padB (blockRaw [([0], List.replicate 4091 0)]),
    by rw [hblocks]; exact List.mem_singleton.mpr rfl, ?_⟩
  rintro ⟨rs, hne, hle, heq⟩
  have h2 : 2 ≤ (blockRaw rs).length := by
    rw [length_blockRaw]
    omega
  have hsmall : (padB (blockRaw rs)).length ≤ BLOCK := by
    have hB : BLOCK = 4096 := rfl
    simp only [padB, List.length_append, List.length_replicate]
    rw [hB] at hle ⊢
    unfold alignUp
    omega
  rw [← heq, hlen] at hsmall
  norm_num [BLOCK] at hsmall

/-- Claim C8: the records `flushWAL` writes into the data blocks are the
snapshot stably sorted by `cmp16` of the 16-byte sort keys: the written
sequence — the concatenation of the sealed blocks' record groups — is
exactly the stable sort of the snapshot, that sequence is pairwise
non-decreasing under `cmp16` on the sort keys, and any two snapshot
records whose sort keys tie keep their pre-sort relative order
(JavaScript's stable `Array.prototype.sort` is modelled by the stable
`mergeSort`). -/
theorem flushWAL_sorted_stable (sk : List Nat → List Nat)
    (snap : List (List Nat × List Nat)) (a b : List Nat × List Nat)
    (hpair : [a, b].Sublist snap) (htie : cmp16 (sk a.1) (sk b.1) = 0) :
    (sortRecs sk snap).Pairwise (fun x y => cmp16 (sk x.1) (sk y.1) ≤ 0) ∧
    [a, b].Sublist (sortRecs sk snap) ∧
    ∃ closed : List (List (List Nat × List Nat)),
      (buildAll sk snap).blocks = closed.map (fun rs => padB (blockRaw rs)) ∧
      closed.join = sortRecs sk snap := by
  have htrans : ∀ x y z : List Nat × List Nat,
      decide (cmp16 (sk x.1) (sk y.1) ≤ 0) = true →
      decide (cmp16 (sk y.1) (sk z.1) ≤ 0) = true →
      decide (cmp16 (sk x.1) (sk z.1) ≤ 0) = true := by
    intro x y z hxy hyz
    simp only [decide_eq_true_eq] at hxy hyz ⊢
    exact cmp16_trans_le _ _ _ hxy hyz
  have htotal : ∀ x y : List Nat × List Nat,
      (decide (cmp16 (sk x.1) (sk y.1) ≤ 0) || decide (cmp16 (sk y.1) (sk x.1) ≤ 0)) = true := by
    intro x y
    rcases cmp16_total (sk x.1) (sk y.1) with h | h <;> simp [h]
  refine ⟨?_, ?_, buildAll_recs sk snap⟩
  · have hs := List.sorted_mergeSort htrans htotal snap
    exact hs.imp fun h => of_decide_eq_true h
  · exact List.pair_sublist_mergeSort htrans htotal (by simp [htie]) hpair

theorem flushWAL_sorted_stable_witness :
    ([(([5] : List Nat), ([1] : List Nat)), (([3] : List Nat), ([2] : List Nat))].Sublist
        [(([5] : List Nat), ([1] : List Nat)), (([3] : List Nat), ([2] : List Nat))] ∧
      cmp16 (sk0 [5]) (sk0 [3]) = 0) ∧
    ((sortRecs sk0 [([5], [1]), ([3], [2])]).Pairwise
        (fun x y => cmp16 (sk0 x.1) (sk0 y.1) ≤ 0) ∧
      [(([5] : List Nat), ([1] : List Nat)), (([3] : List Nat), ([2] : List Nat))].Sublist
        (sortRecs sk0 [([5], [1]), ([3], [2])]) ∧
      ∃ closed : List (List (List Nat × List Nat)),
        (buildAll sk0 [([5], [1]), ([3], [2])]).blocks =
          closed.map (fun rs => padB (blockRaw rs)) ∧
        closed.join = sortRecs sk0 [([5], [1]), ([3], [2])]) :=
  ⟨⟨List.Sublist.refl _, by decide⟩,
    flushWAL_sorted_stable sk0 [([5], [1]), ([3], [2])] ([5], [1]) ([3], [2])
      (List.Sublist.refl _) (by decide)⟩

/-- Claim C10: writer-reader round trip.  For every snapshot of records
(each fitting one block) that `flushWAL` successfully flushes into a new
table, decoding the written meta page and index via `readEntryHead` and
repeatedly calling `TableReader.next` yields exactly
`entryCount = snap.length` key/value pairs followed by `null`, and the
pairs are a permutation of the snapshot. -/
theorem flushWAL_reader_roundtrip
    (sk : List Nat → List Nat) (st : TableState) (file idBytes : List Nat)
    (snap : List (List Nat × List Nat))
    (st2 : TableState) (file2 : List Nat) (out : FlushOut)
    (hrec : ∀ r ∈ snap, 6 + r.1.length + r.2.length ≤ BLOCK - 2)
    (hid : idBytes.length < 256 ^ 2)
    (hfile : file.length < 256 ^ 4)
    (hsnap : snap.length < 256 ^ 4)
    (hok : flushWAL sk st file idBytes snap = .ok (st2, file2, some out)) :
    ∃ meta index recs,
      readEntryHead st2 file2 st.entries.length = .ok (meta, index) ∧
      meta.entryCount = snap.length ∧
      readerRun file2 index (snap.length + 1) initRState = (recs, none) ∧
      recs.Perm snap := by
  unfold flushWAL at hok
  dsimp only at hok
  split at hok
  next hbne => simp at hok
  next hbne =>
  split at hok
  next e heq => simp at hok
  next stE entry heq =>
  split at hok
  next e henc => simp at hok
  next encoded henc =>
  split at hok
  next henclen => simp at hok
  next henclen =>
  split at hok
  next hfull => simp at hok
  next hfull =>
  simp only [Except.ok.injEq, Prod.mk.injEq, Option.some.injEq] at hok
  obtain ⟨hst2, hfile2, hout⟩ := hok
  subst hst2
  obtain ⟨closed, hsort, hblocks, hindex, hgood, hec, hmn0, hmnw, hmx0, hmxw⟩ :=
    buildAll_inv sk snap hrec
  set b := buildAll sk snap with hb
  set IR := (List.map (fun e =>
    encLE 2 e.firstKey.length ++ encLE 8 e.off ++ encLE 4 e.len ++ e.firstKey) b.index).join
    with hIR
  set IB := IR ++ List.replicate (alignUp IR.length 8 - IR.length) 0 with hIB
  set BB := (List.map List.length b.blocks).sum with hBB
  set SZ := BLOCK + IB.length + BB with hSZ
  set AMB := encoded ++ List.replicate (BLOCK - encoded.length) 0 with hAMB
  set FULL := AMB ++ IB ++ b.blocks.join with hFULL
  have hB : BLOCK = 4096 := rfl
  rw [requestTable_eq] at heq
  split at heq
  next hcomp => simp at heq
  next hcomp =>
  split at heq
  next hcap => simp at heq
  next hcap =>
  simp only [Except.ok.injEq, Prod.mk.injEq] at heq
  obtain ⟨hstE, hentry⟩ := heq
  subst hentry
  subst hstE
  dsimp only at henc hfull hfile2 hout
  have hcomp2 : st.tableTail + SZ ≤ file.length := by omega
  have hAMBlen : AMB.length = BLOCK := by
    rw [hAMB]
    simp
    omega
  have hIBge : IR.length ≤ IB.length := by
    rw [hIB]
    simp
  have hIBlen : IB.length = alignUp IR.length 8 := by
    have h8 := alignUp_ge IR.length 8 (by norm_num)
    rw [hIB]
    simp
    omega
  have hBBc : BB = (closed.map (fun rs => (padB (blockRaw rs)).length)).sum := by
    rw [hBB, hblocks, List.map_map]
    rfl
  have hjoin_len : b.blocks.join.length = BB := by
    rw [hBB, List.length_join]
  have hFULLlen : FULL.length = SZ := by
    rw [hFULL, hSZ]
    simp only [List.length_append, hAMBlen, hjoin_len]
  have henc0 := henc
  rw [encodeTableMeta] at henc
  split at henc
  next hck => simp at henc
  next hck =>
  have hminK : (b.minPfx.getD (List.replicate 16 0)).length = 16 := by
    rcases not_or.mp hck with ⟨h1, -⟩
    exact not_ne_iff.mp h1
  have hmaxK : (b.maxPfx.getD (List.replicate 16 0)).length = 16 := by
    rcases not_or.mp hck with ⟨-, h2⟩
    exact not_ne_iff.mp h2
  have hdec := decodeTableMeta_encode _ (BLOCK - encoded.length) rfl
    (by dsimp only; exact hid)
    (by dsimp only; norm_num)
    (by dsimp only; norm_num)
    (by dsimp only; norm_num)
    (by dsimp only; omega)
    (by dsimp only; norm_num [BLOCK])
    (by dsimp only; omega)
    (by dsimp only; omega)
    (by dsimp only; rw [hec]; omega)
    (by dsimp only; exact hminK)
    (by dsimp only; exact hmaxK)
    encoded henc0
  rw [← hAMB] at hdec
  have hTTle : st.tableTail ≤ file.length := by omega
  have hSZge : BLOCK ≤ SZ := by rw [hSZ]; omega
  have hmetaBuf : readAt file2 st.tableTail BLOCK = AMB := by
    rw [← hfile2]
    rw [readAt_writeAt0 file FULL st.tableTail BLOCK (by rw [hFULLlen]; omega) hTTle]
    rw [hFULL, List.append_assoc]
    exact readAt_take _ _ _ hAMBlen
  have hIRread : readAt file2 (st.tableTail + BLOCK) IR.length = IR := by
    rw [← hfile2]
    rw [readAt_writeAt file FULL st.tableTail BLOCK IR.length
      (by rw [hFULLlen, hSZ]; omega) hTTle]
    rw [hFULL, List.append_assoc]
    rw [readAt_at AMB _ BLOCK IR.length hAMBlen]
    rw [hIB, List.append_assoc]
    exact readAt_take _ _ _ rfl
  have hbnd : ∀ e ∈ b.index, e.firstKey.length < 256 ^ 2 ∧ e.off < 256 ^ 8 ∧ e.len < 256 ^ 4 := by
    intro e he
    rw [hindex] at he
    obtain ⟨t, ht, hfk, hlen, hge, hle⟩ := mem_mkIndex closed 0 e he
    have hmem : closed.get ⟨t, ht⟩ ∈ closed := List.get_mem _ _ _
    obtain ⟨hne, hszb⟩ := hgood _ hmem
    obtain ⟨r0, rt, hr0⟩ := List.exists_cons_of_ne_nil hne
    have hr0m : r0 ∈ closed.join := List.mem_join.mpr ⟨_, hmem, by rw [hr0]; simp⟩
    have hr0s : r0 ∈ snap := by
      rw [← hsort] at hr0m
      exact List.mem_mergeSort.mp hr0m
    have hb1 := hrec r0 hr0s
    have hoffl : e.off + e.len ≤ BB := by
      rw [hBBc]
      simpa using hle
    refine ⟨?_, by omega, by omega⟩
    rw [hfk, hr0]
    dsimp
    omega
  have hidx : decodeIndex IR 0 = mkIndex 0 closed := by
    have h := decodeIndex_encode b.index [] hbnd
    simp only [List.nil_append, List.length_nil] at h
    rw [show IR = (List.map encIdxE b.index).join from by rw [hIR]; rfl]
    rw [h, hindex]
  refine ⟨⟨idBytes, 0, b.minPfx.getD (List.replicate 16 0),
      b.maxPfx.getD (List.replicate 16 0), 0, 0, [], SZ, BLOCK, st.tableTail + BLOCK,
      IR.length, b.entryCount⟩,
    mkIndex (st.tableTail + BLOCK + alignUp IR.length 8) closed, closed.join, ?_, ?_, ?_, ?_⟩
  · unfold readEntryHead
    dsimp only
    rw [List.getElem?_concat_length]
    dsimp only
    rw [hmetaBuf, hdec]
    dsimp only
    rw [hIRread, hidx]
    rw [mkIndex_map_shift]
    rw [Nat.add_zero]
  · exact hec
  · have hcnt : closed.join.length = snap.length := by
      rw [← hsort]
      exact (List.mergeSort_perm snap _).length_eq
    rw [← hcnt]
    apply readerRun_drain file2 _ closed initRState rfl
    · rw [mkIndex_length]
      dsimp [initRState]
      omega
    · intro t ht
      have hgd := mkIndex_getD closed (st.tableTail + BLOCK + alignUp IR.length 8) t ht
      have hti : initRState.i + t = t := by
        dsimp [initRState]
        omega
      have htb : t < b.blocks.length := by
        rw [hblocks]
        simpa using ht
      have hSg : ((closed.take t).map (fun rs => (padB (blockRaw rs)).length)).sum
          = ((b.blocks.take t).map List.length).sum := by
        rw [hblocks, ← List.map_take, List.map_map]
        rfl
      have hLt : t < (closed.map (fun rs => (padB (blockRaw rs)).length)).length := by
        simpa using ht
      have hsum2 := sum_take_le (closed.map (fun rs => (padB (blockRaw rs)).length)) (t + 1)
      rw [List.sum_take_succ _ t hLt] at hsum2
      rw [← List.map_take, List.getElem_map] at hsum2
      have hSgle : ((closed.take t).map (fun rs => (padB (blockRaw rs)).length)).sum
          + (padB (blockRaw (closed.get ⟨t, ht⟩))).length ≤ BB := by
        rw [hBBc]
        rw [List.get_eq_getElem]
        exact hsum2
      have hgetb : b.blocks.get ⟨t, htb⟩ = padB (blockRaw (closed.get ⟨t, ht⟩)) := by
        rw [List.get_of_eq hblocks]
        simp [List.get_map]
      rw [hti, hgd]
      dsimp only
      constructor
      · rw [← hfile2]
        rw [show st.tableTail + BLOCK + alignUp IR.length 8
              + ((closed.take t).map (fun rs => (padB (blockRaw rs)).length)).sum
            = st.tableTail + (BLOCK + (IB.length
              + ((closed.take t).map (fun rs => (padB (blockRaw rs)).length)).sum))
          from by rw [hIBlen]; omega]
        rw [readAt_writeAt file FULL st.tableTail _ _ (by rw [hFULLlen, hSZ]; omega) hTTle]
        rw [hFULL, List.append_assoc]
        rw [readAt_skip AMB _ BLOCK _ _ hAMBlen]
        rw [readAt_skip IB _ IB.length _ _ rfl]
        have hjs := join_slice b.blocks t htb
        rw [← hSg] at hjs
        rw [hgetb] at hjs
        exact hjs
      · exact (hgood _ (List.get_mem _ _ _)).2
  · rw [← hsort]
    exact List.mergeSort_perm snap _


-- Concrete evaluation of flushWAL on a one-record snapshot over an 8208-byte
-- file of zeros: the builder output, encoded metadata, index buffer and full
-- table image are computed in closed form.
def stW : TableState := { entries := [], tableTail := 0 }

def fileW : List Nat := List.replicate 8208 0

def idW : List Nat := [1, 2, 3, 4]

def snapW : List (List Nat × List Nat) := [([107], [104])]

def entryW : ManifestEntry := ⟨0, 0, 8208, List.replicate 16 0, List.replicate 16 0⟩

def metaW : TableMeta :=
  ⟨idW, 0, List.replicate 16 0, List.replicate 16 0, 0, 0, [], 8208, 4096, 4096, 15, 1⟩

def rawW : List Nat := encLE 2 1 ++ (encLE 2 1 ++ encLE 4 1 ++ ([107] ++ ([104] ++ [])))

def encodedW : List Nat :=
  encLE 2 4 ++ encLE 2 0 ++ encLE 8 0 ++ encLE 8 0 ++ encLE 8 8208 ++ encLE 4 4096
    ++ encLE 8 4096 ++ encLE 4 15 ++ encLE 4 1 ++ List.replicate 16 0 ++ List.replicate 16 0
    ++ encLE 4 0 ++ idW ++ []

def indexRawW : List Nat := encLE 2 1 ++ encLE 8 0 ++ encLE 4 4096 ++ [107]

def fullW : List Nat :=
  encodedW ++ List.replicate 4008 0 ++ (indexRawW ++ List.replicate 1 0)
    ++ ((rawW ++ List.replicate 4086 0) ++ [])

def st2W : TableState := ⟨[entryW], 12288⟩

def outW : FlushOut := ⟨entryW, metaW, fullW⟩

def bW : Builder :=
  { blocks := [rawW ++ List.replicate 4086 0], index := [⟨[107], 0, 4096⟩], parts := [],
    countInBlock := 0, curSize := 2, firstKey := none,
    minPfx := some (List.replicate 16 0), maxPfx := some (List.replicate 16 0),
    entryCount := 1 }

theorem buildW_eval : buildAll sk0 snapW = bW := by
  unfold buildAll sortRecs snapW
  rw [List.mergeSort_singleton]
  simp only [List.foldl_cons, List.foldl_nil]
  simp only [pushRecord, initBuilder, flushBlock, sk0]
  norm_num [BLOCK, bW, rawW, alignUp, recHdr, List.join]

theorem hencW : encodeTableMeta metaW = .ok encodedW := by
  rw [encodeTableMeta, if_neg (by simp [metaW])]
  simp [-List.reduceReplicate, metaW, idW, encodedW, List.join]

theorem hfullW_len : fullW.length = 8208 := by
  simp [-List.reduceReplicate, fullW, encodedW, indexRawW, rawW, idW]

theorem flushW_eval :
    flushWAL sk0 stW fileW idW snapW = .ok (st2W, writeAt fileW 0 fullW, some outW) := by
  have hIRW : (List.map (fun e =>
      encLE 2 e.firstKey.length ++ encLE 8 e.off ++ encLE 4 e.len ++ e.firstKey)
      bW.index).join = indexRawW := by
    simp [-List.reduceReplicate, bW, indexRawW]
  unfold flushWAL
  rw [buildW_eval]
  rw [show fileW.length = 8208 from by simp [-List.reduceReplicate, fileW]]
  dsimp only
  rw [if_neg (by simp [-List.reduceReplicate, bW])]
  rw [hIRW]
  rw [show indexRawW.length = 15 from by simp [indexRawW]]
  rw [show alignUp 15 8 - 15 = 1 from by norm_num [alignUp]]
  have h16 : (indexRawW ++ List.replicate 1 0).length = 16 := by simp [indexRawW]
  rw [h16]
  rw [show (List.map List.length bW.blocks).sum = 4096 from by
    simp [-List.reduceReplicate, bW, rawW]]
  rw [show (BLOCK : Nat) = 4096 from rfl]
  rw [show (4096 : Nat) + 16 + 4096 = 8208 from by norm_num]
  rw [show bW.minPfx.getD (List.replicate 16 0) = List.replicate 16 0 from rfl]
  rw [show bW.maxPfx.getD (List.replicate 16 0) = List.replicate 16 0 from rfl]
  rw [show bW.entryCount = 1 from rfl]
  rw [show bW.blocks.join = (rawW ++ List.replicate 4086 0) ++ [] from rfl]
  rw [requestTable_eq]
  rw [if_neg (by norm_num [stW])]
  rw [if_neg (by norm_num [stW, CAP, BLOCK, HEADER_SIZE, ENTRY_SIZE])]
  dsimp only
  rw [show stW.tableTail = 0 from rfl]
  rw [show stW.entries = ([] : List ManifestEntry) from rfl]
  rw [List.nil_append]
  rw [show alignUp (0 + 8208) BLOCK = 12288 from by norm_num [alignUp, BLOCK]]
  rw [show (0 : Nat) + 4096 = 4096 from by norm_num]
  rw [show (⟨idW, 0, List.replicate 16 0, List.replicate 16 0, 0, 0, [], 8208, 4096,
      4096, 15, 1⟩ : TableMeta) = metaW from rfl]
  rw [hencW]
  dsimp only
  rw [show encodedW.length = 88 from by simp [-List.reduceReplicate, encodedW, idW]]
  rw [if_neg (by norm_num)]
  rw [show (4096 : Nat) - 88 = 4008 from by norm_num]
  rw [show encodedW ++ List.replicate 4008 0 ++ (indexRawW ++ List.replicate 1 0)
      ++ ((rawW ++ List.replicate 4086 0) ++ []) = fullW from rfl]
  rw [hfullW_len]
  rw [if_neg (by norm_num)]
  rfl

theorem flushWAL_reader_roundtrip_witness :
    (∀ r ∈ snapW, 6 + r.1.length + r.2.length ≤ BLOCK - 2) ∧
    idW.length < 256 ^ 2 ∧ fileW.length < 256 ^ 4 ∧ snapW.length < 256 ^ 4 ∧
    ∃ meta index recs,
      readEntryHead st2W (writeAt fileW 0 fullW) stW.entries.length = .ok (meta, index) ∧
      meta.entryCount = snapW.length ∧
      readerRun (writeAt fileW 0 fullW) index (snapW.length + 1) initRState = (recs, none) ∧
      recs.Perm snapW :=
  ⟨by decide, by decide, (by simp [-List.reduceReplicate, fileW]), by decide,
   flushWAL_reader_roundtrip sk0 stW fileW idW snapW st2W (writeAt fileW 0 fullW) outW
     (by decide) (by decide) (by simp [-List.reduceReplicate, fileW]) (by decide) flushW_eval⟩

end LSMT